import Mathlib

/-!
Shallow embedding of `tailwind-rn`'s `src/index.js`: a resolver that turns a
space-separated string of Tailwind utility class names into a flat style
object, with breakpoint filtering, deterministic merge ordering, two
cross-class resolvers (font-variant aggregation and letter-spacing/font-size
coupling), one-level `var(...)` substitution and a per-normalized-string
cache.

Modelling conventions:
* JS strings are Lean `String`s; the class names occurring here are ASCII, so
  Lean's code-point lexicographic order coincides with JS's UTF-16 sort order.
* JS numbers are modelled as `Rat`; the separate `SVal.nan` constructor models
  the `NaN` that `parseFloat`/arithmetic can produce.  Widths are finite
  numbers (a `NaN` width, which is falsy, is not modelled).
* JS objects (style fragments, accumulators, the cache) are insertion-ordered
  association lists with unique keys; `setKey` models property assignment
  (overwrite in place or append) and `getKey` models property lookup.
* Exceptions are modelled with `Except`: the two explicit `throw new Error`
  sites of the source plus the implicit `TypeError` raised by destructuring
  `undefined` in `addLetterSpacing`.
* Warnings (`console.warn`) are collected in an output list.
-/

namespace TailwindRn

/-! ### JS string primitives -/

/-- Substring test, JS `String.prototype.includes`. -/
def isSubstr (k s : String) : Bool :=
  s.toList.tails.any (fun t => k.toList.isPrefixOf t)

/-- JS `p.startsWith(q)` / slice-prefix test on strings. -/
def strStarts (p s : String) : Bool :=
  p.toList.isPrefixOf s.toList

/-- JS `s.slice(0, 3)`. -/
def slice3 (s : String) : String :=
  String.mk (s.toList.take 3)

/-- JS `s.slice(3)`. -/
def sliceFrom3 (s : String) : String :=
  String.mk (s.toList.drop 3)

/-- One step of splitting a character list into maximal non-whitespace runs,
processed by `List.foldr`; the state is (current run, completed runs). -/
def wordsStep (c : Char) (st : List Char × List (List Char)) :
    List Char × List (List Char) :=
  if c.isWhitespace then ([], if st.1 = [] then st.2 else st.1 :: st.2)
  else (c :: st.1, st.2)

/-- Maximal non-whitespace runs of a character list, in order.  This is the
token list produced by JS `s.replace(/\s+/g, ' ').trim().split(' ')` except
that the JS pipeline yields `[""]` (not `[]`) on a fully-blank string; see
`jsSplit`. -/
def splitWs (l : List Char) : List (List Char) :=
  let st := l.foldr wordsStep ([], [])
  if st.1 = [] then st.2 else st.1 :: st.2

/-- JS `s.replace(/\s+/g, ' ').trim().split(' ')` (lines 101 and 150-153 of
the source): splitting a blank string yields the single empty token. -/
def jsSplit (s : String) : List String :=
  match splitWs s.toList with
  | [] => [""]
  | ts => ts.map (fun cs => String.mk cs)

/-! ### Style values and objects -/

/-- A JS value occurring in a style fragment: a string, a finite number, the
`NaN` produced by failed numeric conversion, or an array of strings (the
`fontVariant` list). -/
inductive SVal where
  | str : String → SVal
  | num : Rat → SVal
  | nan : SVal
  | arr : List String → SVal
deriving DecidableEq, Repr

/-- A JS object: insertion-ordered association list (unique keys in all
reachable states). -/
abbrev Obj := List (String × SVal)

/-- Property lookup, `o[k]` (`none` models `undefined`). -/
def getKey (o : Obj) (k : String) : Option SVal :=
  (o.find? (fun e => e.1 = k)).map (fun e => e.2)

/-- Property assignment `o[k] = v`: overwrite an existing slot in place,
otherwise append. -/
def setKey (o : Obj) (k : String) (v : SVal) : Obj :=
  if o.any (fun e => e.1 = k) then
    o.map (fun e => if e.1 = k then (k, v) else e)
  else o ++ [(k, v)]

/-- JS `Object.assign(st, frag)`: copy every property of `frag` onto `st`. -/
def assignFrag (st : Obj) (frag : Obj) : Obj :=
  frag.foldl (fun acc e => setKey acc e.1 e.2) st

/-! ### Numeric conversions -/

/-- Decimal digits to a natural number. -/
def digitsToNat (ds : List Char) : Nat :=
  ds.foldl (fun n d => n * 10 + (d.toNat - 48)) 0

/-- Exponent part of a JS float literal: an optional sign and digits, applied
to the mantissa; garbage after the mantissa is ignored, as in `parseFloat`. -/
def applyExponent (mant : Rat) (cs : List Char) : Rat :=
  match cs with
  | 'e' :: r | 'E' :: r =>
    let (esign, r2) : Int × List Char :=
      match r with
      | '-' :: r2 => (-1, r2)
      | '+' :: r2 => (1, r2)
      | _ => (1, r)
    let eds := r2.takeWhile (fun c => c.isDigit)
    if eds = [] then mant else mant * (10 : Rat) ^ (esign * (digitsToNat eds : Int))
  | _ => mant

/-- JS `Number.parseFloat` on the decimal literals arising here: skip leading
whitespace, optional sign, integer digits, optional fraction, optional
exponent; trailing garbage (such as the `em` unit suffix) is ignored.  `none`
models `NaN` (no digits at all).  The `Infinity` literal is not modelled; no
style value uses it. -/
def jsParseFloat (s : String) : Option Rat :=
  let cs := s.toList.dropWhile (fun c => c.isWhitespace)
  let (sign, cs1) : Int × List Char :=
    match cs with
    | '-' :: r => (-1, r)
    | '+' :: r => (1, r)
    | _ => (1, cs)
  let intPart := cs1.takeWhile (fun c => c.isDigit)
  let cs2 := cs1.dropWhile (fun c => c.isDigit)
  let (fracPart, cs3) : List Char × List Char :=
    match cs2 with
    | '.' :: r => (r.takeWhile (fun c => c.isDigit), r.dropWhile (fun c => c.isDigit))
    | _ => ([], cs2)
  if intPart = [] ∧ fracPart = [] then none
  else
    let mant : Rat :=
      (sign : Rat) * (digitsToNat (intPart ++ fracPart) : Rat) / (10 : Rat) ^ fracPart.length
    some (applyExponent mant cs3)

/-- Rendering of a JS number by `String(...)` for the finite decimal values
arising from the style table: integers print without a point, other decimal
values with the shortest power-of-ten denominator (30 decimal places suffice
for every value reachable here; the fallback prints `num/den`). -/
def jsNumRepr (q : Rat) : String :=
  if q.den = 1 then toString q.num
  else
    match (List.range 31).find? (fun k => (q * (10 : Rat) ^ k).den = 1) with
    | some k =>
      let scaled := (q * (10 : Rat) ^ k).num.natAbs
      let ds := toString scaled
      let ds := (List.replicate (k + 1 - ds.length) '0').asString ++ ds
      let intLen := ds.length - k
      (if q < 0 then "-" else "") ++
        String.mk (ds.toList.take intLen) ++ "." ++ String.mk (ds.toList.drop intLen)
    | none => toString q.num ++ "/" ++ toString q.den

/-- JS `String(x)` on a possibly-`undefined` style value, as used by the
`replace` callback of `useVariables`. -/
def svalToString (v : Option SVal) : String :=
  match v with
  | none => "undefined"
  | some (.str s) => s
  | some (.num q) => jsNumRepr q
  | some .nan => "NaN"
  | some (.arr a) => String.intercalate "," a

/-- Conversion used by `Number.parseFloat(x)` on a property value: the value
is first converted to a string and that string is parsed. -/
def parseFloatVal (v : Option SVal) : Option Rat :=
  match v with
  | none => none
  | some (.str s) => jsParseFloat s
  | some (.num q) => some q
  | some .nan => none
  | some (.arr a) => jsParseFloat (String.intercalate "," a)

/-- JS `ToNumber` as applied to the `fontSize` operand of the multiplication
in `addLetterSpacing`: numbers pass through, `undefined` and `NaN` give `NaN`.
No reachable table stores a string or array `fontSize`, so those conversions
are approximated by `jsParseFloat`. -/
def toNumberVal (v : Option SVal) : Option Rat :=
  match v with
  | none => none
  | some (.str s) => jsParseFloat s
  | some (.num q) => some q
  | some .nan => none
  | some (.arr a) => jsParseFloat (String.intercalate "," a)

/-- JS multiplication whose operands may be `NaN` (`none`). -/
def jsMul (a b : Option Rat) : SVal :=
  match a, b with
  | some x, some y => .num (x * y)
  | _, _ => .nan

/-! ### `useVariables` (lines 6-22) -/

/-- Character class `[a-zA-Z-]` of the `var(...)` pattern. -/
def isVarNameChar (c : Char) : Bool :=
  c.isAlpha || c = '-'

/-- First match of the regex `var\(([a-zA-Z-]+)\)` in a character list:
returns the characters before the match, the captured name, and the
characters after the match. -/
def findVar : List Char → Option (List Char × List Char × List Char)
  | [] => none
  | c :: cs =>
    let here : Option (List Char × List Char) :=
      if ['v', 'a', 'r', '('].isPrefixOf (c :: cs) then
        let rest := (c :: cs).drop 4
        let name := rest.takeWhile isVarNameChar
        match rest.drop name.length with
        | ')' :: after => if name = [] then none else some (name, after)
        | _ => none
      else none
    match here with
    | some (name, after) => some ([], name, after)
    | none =>
      match findVar cs with
      | some (b, name, after) => some (c :: b, name, after)
      | none => none

/-- JS `value.replace(/var\(([a-zA-Z-]+)\)/, (_, name) => object[name])`:
replace the first `var(name)` placeholder with the named property of `o`
(stringified, `undefined` included), leaving everything else unchanged. -/
def replaceVar (o : Obj) (s : String) : String :=
  match findVar s.toList with
  | none => s
  | some (before, name, after) =>
    String.mk before ++ svalToString (getKey o (String.mk name)) ++ String.mk after

/-- Source `useVariables` (lines 6-22): drop every property whose name starts
with `--`, substitute the first `var(name)` placeholder of every string value
using the original object, pass every other value through. -/
def useVariables (o : Obj) : Obj :=
  o.foldl
    (fun acc e =>
      if strStarts "--" e.1 then acc
      else
        match e.2 with
        | .str s => setKey acc e.1 (.str (replaceVar o s))
        | v => setKey acc e.1 v)
    []

/-! ### `addFontVariant` (lines 24-34) -/

/-- The four alternatives of `FONT_VARIANT_REGEX`, in alternation order. -/
def fvKeywords : List String :=
  ["oldstyle-nums", "lining-nums", "tabular-nums", "proportional-nums"]

/-- Scanner for the global regex
`/(oldstyle-nums|lining-nums|tabular-nums|proportional-nums)/g`: all
non-overlapping matches in order of occurrence.  The `Nat` argument skips the
remainder of a keyword already consumed by a match (the keywords have lengths
13, 11, 12 and 17). -/
def findFVAux : List Char → Nat → List String
  | [], _ => []
  | _ :: cs, n + 1 => findFVAux cs n
  | c :: cs, 0 =>
    if "oldstyle-nums".toList.isPrefixOf (c :: cs) then
      "oldstyle-nums" :: findFVAux cs 12
    else if "lining-nums".toList.isPrefixOf (c :: cs) then
      "lining-nums" :: findFVAux cs 10
    else if "tabular-nums".toList.isPrefixOf (c :: cs) then
      "tabular-nums" :: findFVAux cs 11
    else if "proportional-nums".toList.isPrefixOf (c :: cs) then
      "proportional-nums" :: findFVAux cs 16
    else findFVAux cs 0

/-- All font-variant regex matches of a string, in order of occurrence,
duplicates preserved (JS `matchAll(classNames, FONT_VARIANT_REGEX).toArray()`). -/
def findFV (s : String) : List String :=
  findFVAux s.toList 0

/-- Source `addFontVariant` (lines 28-34): if the string has font-variant
matches, set `fontVariant` to the array of matches. -/
def addFontVariant (style : Obj) (classNames : String) : Obj :=
  let ms := findFV classNames
  if ms.length > 0 then setKey style "fontVariant" (.arr ms) else style

/-! ### `addLetterSpacing` (lines 36-62) -/

/-- First match of `LETTER_SPACING_REGEX = /(tracking-[a-z]+)/`: the literal
`tracking-` followed by a maximal nonempty run of lowercase letters. -/
def findTracking : List Char → Option String
  | [] => none
  | c :: cs =>
    if "tracking-".toList.isPrefixOf (c :: cs) then
      let run := ((c :: cs).drop 9).takeWhile (fun ch => ch.isLower)
      if run = [] then findTracking cs
      else some ("tracking-" ++ String.mk run)
    else findTracking cs

/-- The alternatives of `FONT_SIZE_REGEX`, in alternation order. -/
def fontSizeAlts : List String :=
  ["xs", "sm", "base", "lg", "xl", "2xl", "3xl", "4xl", "5xl", "6xl"]

/-- First match of
`FONT_SIZE_REGEX = /text-(xs|sm|base|lg|xl|2xl|3xl|4xl|5xl|6xl)/`: the literal
`text-` followed by the first alternative that matches at that position. -/
def findFontSize : List Char → Option String
  | [] => none
  | c :: cs =>
    if "text-".toList.isPrefixOf (c :: cs) then
      match fontSizeAlts.find? (fun sz => sz.toList.isPrefixOf ((c :: cs).drop 5)) with
      | some sz => some ("text-" ++ sz)
      | none => findFontSize cs
    else findFontSize cs

/-- The style lookup table (`tailwindStyles`, the injected `styles.json`). -/
abbrev Table := List (String × Obj)

/-- Table lookup `tailwindStyles[className]` (`none` models `undefined`). -/
def getFrag (table : Table) (className : String) : Option Obj :=
  (table.find? (fun e => e.1 = className)).map (fun e => e.2)

/-- The error kinds `tailwind` can raise: the two explicit `throw new Error`
sites, plus the `TypeError` implicitly raised by destructuring
`tailwindStyles[c]` when `c` is absent from the table (line 57 or 59). -/
inductive Err where
  | missingWidth
  | missingFontSize
  | typeError
deriving DecidableEq, Repr

/-- Source `addLetterSpacing` (lines 41-62): no-op without a tracking match;
with one, a missing font-size match throws; otherwise the two fragments are
destructured (throwing a `TypeError` if either class is absent from the
table) and `letterSpacing` is set to
`Number.parseFloat(letterSpacing) * fontSize`. -/
def addLetterSpacing (table : Table) (style : Obj) (classNames : String) :
    Except Err Obj :=
  match findTracking classNames.toList with
  | none => .ok style
  | some lsClass =>
    match findFontSize classNames.toList with
    | none => .error .missingFontSize
    | some fsClass =>
      match getFrag table lsClass with
      | none => .error .typeError
      | some lsFrag =>
        match getFrag table fsClass with
        | none => .error .typeError
        | some fsFrag =>
          .ok (setKey style "letterSpacing"
            (jsMul (parseFloatVal (getKey lsFrag "letterSpacing"))
              (toNumberVal (getKey fsFrag "fontSize"))))

/-! ### `putLeadingToTheBack` (lines 64-77) and the ordering engine -/

/-- Source `putLeadingToTheBack` (lines 65-77): one pass over the bucket
pushing each name onto `leadingNames` when it starts with
`maxWidthKey + "leading-"` and onto `otherNames` otherwise, then
`otherNames ++ leadingNames`. -/
def putLeadingToTheBack (classNames : List String) (maxWidthKey : String) :
    List String :=
  let pr := classNames.foldl
    (fun (acc : List String × List String) name =>
      if strStarts (maxWidthKey ++ "leading-") name then (acc.1, acc.2 ++ [name])
      else (acc.1 ++ [name], acc.2))
    ([], [])
  pr.1 ++ pr.2

/-- The hard-coded breakpoint prefixes (line 93). -/
def maxWidthKeys : List String := ["sm:", "md:", "lg:", "xl:"]

/-- The hard-coded breakpoint thresholds (line 94). -/
def maxWidthValues : List Rat := [640, 768, 1024, 1280]

/-- Lexicographic comparison of character lists by code point — for the ASCII
class names occurring here this is exactly the UTF-16 code-unit comparison JS
`Array.prototype.sort` applies to strings. -/
def lexLe : List Char → List Char → Bool
  | [], _ => true
  | _ :: _, [] => false
  | a :: as, b :: bs =>
    if a.toNat < b.toNat then true
    else if b.toNat < a.toNat then false
    else lexLe as bs

/-- JS default string comparison, as a relation on `String`. -/
def strLe (a b : String) : Prop :=
  lexLe a.toList b.toList = true

instance : DecidableRel strLe := fun _ _ => instDecidableEqBool _ _

/-- JS default sort: lexicographic on the string values (stability is
irrelevant: equal keys are identical strings). -/
def sortStr (l : List String) : List String :=
  l.insertionSort strLe

/-- Lines 103-116: partition into the untagged bucket and the four breakpoint
buckets by `slice(0, 3)`, sort each bucket, move each bucket's `leading-`
names to its back, and concatenate in the fixed order. -/
def orderClassNames (classNames : List String) : List String :=
  let c1 := sortStr (classNames.filter (fun c => !(maxWidthKeys.contains (slice3 c))))
  let c2 := sortStr (classNames.filter (fun c => slice3 c = "sm:"))
  let c3 := sortStr (classNames.filter (fun c => slice3 c = "md:"))
  let c4 := sortStr (classNames.filter (fun c => slice3 c = "lg:"))
  let c5 := sortStr (classNames.filter (fun c => slice3 c = "xl:"))
  putLeadingToTheBack c1 "" ++ putLeadingToTheBack c2 "sm:" ++
    putLeadingToTheBack c3 "md:" ++ putLeadingToTheBack c4 "lg:" ++
    putLeadingToTheBack c5 "xl:"

/-- Lines 118-131: `i` counts the thresholds at or below `windowWidth`; a
name is kept when its 3-character prefix is not a breakpoint key or is among
the first `i` keys; surviving breakpoint prefixes are sliced off. -/
def filterStrip (classNames : List String) (windowWidth : Rat) : List String :=
  let i := (maxWidthValues.map (fun mw => if windowWidth ≥ mw then 1 else 0)).foldl
    (fun a b => a + b) 0
  let kept := classNames.filter (fun cn =>
    !(maxWidthKeys.contains (slice3 cn)) || (maxWidthKeys.take i).contains (slice3 cn))
  kept.map (fun cn => if maxWidthKeys.contains (slice3 cn) then sliceFrom3 cn else cn)

/-- Line 96: `maxWidthKeys.some(k => classNames.includes(k))` — a substring
test on the raw input string. -/
def haveMWK (classNames : String) : Bool :=
  maxWidthKeys.any (fun k => isSubstr k classNames)

/-- Truthiness of the `windowWidth` argument (`null` or `0` are falsy). -/
def jsFalsy (w : Option Rat) : Bool :=
  match w with
  | none => true
  | some q => q = 0

/-- Lines 101-133: split, order, filter when breakpoint substrings are
present, and join with single spaces — the normalized cache key. -/
def normalizeKey (classNames : String) (windowWidth : Option Rat) : String :=
  let ts := jsSplit classNames
  let ordered := orderClassNames ts
  let final :=
    if haveMWK classNames then
      filterStrip ordered (match windowWidth with | some w => w | none => 0)
    else ordered
  String.intercalate " " final

/-! ### The merge engine and the top-level `tailwind` (lines 79-167) -/

/-- Lines 150-155: re-split the normalized string and drop the names consumed
by the cross-class resolvers — those starting with `tracking-` and the four
font-variant keywords. -/
def separateClassNames (classNames : String) : List String :=
  ((jsSplit classNames).filter (fun c => !(strStarts "tracking-" c))).filter
    (fun c => !(fvKeywords.contains c))

/-- Lines 157-163: fold every remaining name into the accumulator with
`Object.assign` when the table has it, otherwise record a warning. -/
def mergeLoop (table : Table) (st : Obj) (tokens : List String) :
    Obj × List String :=
  tokens.foldl
    (fun (acc : Obj × List String) cn =>
      match getFrag table cn with
      | some frag => (assignFrag acc.1 frag, acc.2)
      | none => (acc.1, acc.2 ++ [cn]))
    (st, [])

/-- The cache (`create`'s closure state): normalized key to finalized style. -/
abbrev Cache := List (String × Obj)

/-- The cache as initialized by `create` (line 80-82): the empty key is
pre-seeded with the empty style object. -/
def freshCache : Cache := [("", [])]

/-- Cache lookup. -/
def cacheGet (cache : Cache) (k : String) : Option Obj :=
  (cache.find? (fun e => e.1 = k)).map (fun e => e.2)

/-- JS `cache['']`: every reachable cache keeps the pre-seeded `("", {})`
entry (stores only happen at nonempty keys), so the default is never read on
reachable states. -/
def cacheEmpty (cache : Cache) : Obj :=
  (cacheGet cache "").getD []

/-- Lines 143-166, the cache-miss path: build the accumulator with the two
cross-class resolvers, merge the remaining names, finalize with
`useVariables`, store, and return the stored object. -/
def computeStyle (table : Table) (cache : Cache) (key : String) :
    Except Err (Obj × Cache × List String) :=
  match addLetterSpacing table (addFontVariant [] key) key with
  | .error e => .error e
  | .ok st =>
    let merged := mergeLoop table st (separateClassNames key)
    let fin := useVariables merged.1
    .ok (fin, cache ++ [(key, fin)], merged.2)

/-- Source `tailwind` (lines 87-167), with the cache passed explicitly and
warnings collected: returns the style object, the updated cache, and the
warned class names, or the raised error. -/
def tailwind (table : Table) (cache : Cache) (classNames : String)
    (windowWidth : Option Rat) : Except Err (Obj × Cache × List String) :=
  if classNames = "" then .ok (cacheEmpty cache, cache, [])
  else if haveMWK classNames && jsFalsy windowWidth then .error .missingWidth
  else
    let key := normalizeKey classNames windowWidth
    if key = "" then .ok (cacheEmpty cache, cache, [])
    else
      match cacheGet cache key with
      | some v => .ok (v, cache, [])
      | none => computeStyle table cache key

/-! ### A concrete style table for the spec's examples -/

/-- Modelled from the spec: the injected lookup table (`styles.json`, required
on line 179) is not among the sources; this fragment of it follows the spec's
examples — `text-lg` is a font-size class carrying a numeric `fontSize` and a
default `lineHeight`, `leading-6` a line-height utility, the two `bg-*`
classes carry distinct background colors, and the `tracking-*` classes carry
em-suffixed `letterSpacing` strings. -/
def mtable : Table :=
  [ ("text-lg", [("fontSize", .num 18), ("lineHeight", .num 28)]),
    ("leading-6", [("lineHeight", .num 24)]),
    ("bg-red-500", [("backgroundColor", .str "#f56565")]),
    ("bg-blue-500", [("backgroundColor", .str "#4299e1")]),
    ("tracking-tighter", [("letterSpacing", .str "-0.05em")]),
    ("tracking-tight", [("letterSpacing", .str "-0.025em")]) ]

/-! ### Spec-side characterizations -/

/-- Position of a string among the four breakpoint prefixes. -/
def keyIndex (s : String) : Option Nat :=
  if s = "sm:" then some 0
  else if s = "md:" then some 1
  else if s = "lg:" then some 2
  else if s = "xl:" then some 3
  else none

/-- Tier index of a token per the spec: `sm:` is tier 0, `md:` tier 1, `lg:`
tier 2, `xl:` tier 3, judged on the first three characters; `none` for an
untagged token. -/
def tierIndex (cn : String) : Option Nat :=
  keyIndex (slice3 cn)

/-- Spec: the number of tiers whose minimum width is at most the supplied
width. -/
def activeTierCount (w : Rat) : Nat :=
  (maxWidthValues.filter (fun v => v ≤ w)).length

/-- Spec: keep every untagged token; keep a tagged token exactly when its
tier index is strictly below `activeTierCount`. -/
def specKeep (w : Rat) (cn : String) : Bool :=
  match tierIndex cn with
  | none => true
  | some i => i < activeTierCount w

/-- Spec: strip the breakpoint tag from a tagged token. -/
def specStrip (cn : String) : String :=
  if (tierIndex cn).isSome then sliceFrom3 cn else cn

/-- The errors `addLetterSpacing` raises on a normalized string, stated from
the two regex matches: no tracking match means no error; a tracking match
without a font-size match means the missing-font-size error; with both
matches, a class absent from the table means the destructuring `TypeError`. -/
def lsErrorSpec (table : Table) (key : String) : Option Err :=
  match findTracking key.toList with
  | none => none
  | some lsClass =>
    match findFontSize key.toList with
    | none => some .missingFontSize
    | some fsClass =>
      match getFrag table lsClass, getFrag table fsClass with
      | none, _ => some .typeError
      | some _, none => some .typeError
      | some _, some _ => none

/-- Value transformation applied by `useVariables` to a kept property, with
`o` the pre-substitution source object. -/
def substVal (o : Obj) (v : SVal) : SVal :=
  match v with
  | .str s => .str (replaceVar o s)
  | v => v

/-- Keys of an object are pairwise distinct (true of every JS object and of
every object the pipeline builds). -/
def nodupKeys (o : Obj) : Prop :=
  (o.map (fun e => e.1)).Nodup

/-! ### Object lemmas -/

theorem getKey_nil (k : String) : getKey [] k = none := rfl

theorem getKey_cons (e : String × SVal) (o : Obj) (k : String) :
    getKey (e :: o) k = if e.1 = k then some e.2 else getKey o k := by
  by_cases h : e.1 = k <;> simp [getKey, List.find?_cons, h]

theorem getKey_eq_none_iff {o : Obj} {k : String} :
    getKey o k = none ↔ ∀ e ∈ o, e.1 ≠ k := by
  simp [getKey, List.find?_eq_none]

theorem getKey_append (o₁ o₂ : Obj) (k : String) :
    getKey (o₁ ++ o₂) k = (getKey o₁ k).or (getKey o₂ k) := by
  unfold getKey
  rw [List.find?_append]
  cases List.find? (fun e => decide (e.1 = k)) o₁ <;> simp

theorem getKey_map_update_self {o : Obj} {k : String} (v : SVal)
    (h : o.any (fun e => decide (e.1 = k)) = true) :
    getKey (o.map (fun e => if e.1 = k then (k, v) else e)) k = some v := by
  induction o with
  | nil => simp at h
  | cons e o ih =>
    by_cases hek : e.1 = k
    · simp [getKey_cons, hek]
    · simp only [List.any_cons, Bool.or_eq_true, decide_eq_true_eq] at h
      rcases h with h | h
      · exact absurd h hek
      · simpa [getKey_cons, hek] using ih h

theorem getKey_map_update_ne {o : Obj} {k k' : String} (v : SVal) (h : k' ≠ k) :
    getKey (o.map (fun e => if e.1 = k then (k, v) else e)) k' = getKey o k' := by
  induction o with
  | nil => rfl
  | cons e o ih =>
    by_cases hek : e.1 = k
    · have h1 : ((if e.1 = k then (k, v) else e) : String × SVal) = (k, v) := if_pos hek
      rw [List.map_cons, h1, getKey_cons, getKey_cons]
      rw [if_neg (show ¬ (((k, v) : String × SVal).1 = k') from fun hk => h hk.symm)]
      rw [if_neg (show ¬ (e.1 = k') from by rw [hek]; exact fun hk => h hk.symm)]
      exact ih
    · have h1 : ((if e.1 = k then (k, v) else e) : String × SVal) = e := if_neg hek
      rw [List.map_cons, h1, getKey_cons, getKey_cons]
      by_cases he' : e.1 = k'
      · rw [if_pos he', if_pos he']
      · rw [if_neg he', if_neg he']
        exact ih

theorem getKey_setKey_self (o : Obj) (k : String) (v : SVal) :
    getKey (setKey o k v) k = some v := by
  unfold setKey
  split
  · exact getKey_map_update_self v (by assumption)
  · rename_i h
    have ho : getKey o k = none := by
      rw [getKey_eq_none_iff]
      intro e he hk
      exact h (List.any_eq_true.mpr ⟨e, he, decide_eq_true hk⟩)
    rw [getKey_append, ho]
    simp [getKey_cons]

theorem getKey_setKey_ne (o : Obj) {k k' : String} (v : SVal) (h : k' ≠ k) :
    getKey (setKey o k v) k' = getKey o k' := by
  unfold setKey
  split
  · exact getKey_map_update_ne v h
  · rw [getKey_append]
    have : getKey [(k, v)] k' = none := by simp [getKey_cons, getKey_nil, Ne.symm h]
    rw [this]
    cases getKey o k' <;> rfl

theorem nodupKeys_setKey {o : Obj} (k : String) (v : SVal) (h : nodupKeys o) :
    nodupKeys (setKey o k v) := by
  unfold setKey
  split
  · unfold nodupKeys at h ⊢
    have : (List.map (fun e => if e.1 = k then (k, v) else e) o).map (fun e => e.1) =
        o.map (fun e => e.1) := by
      simp only [List.map_map]
      apply List.map_congr_left
      intro e _
      by_cases hek : e.1 = k <;> simp [hek]
    rw [this]
    exact h
  · rename_i hne
    unfold nodupKeys at h ⊢
    rw [List.map_append]
    simp only [List.map_cons, List.map_nil]
    rw [List.nodup_append]
    refine ⟨h, List.nodup_singleton k, ?_⟩
    intro a ha hb
    simp only [List.mem_singleton] at hb
    subst hb
    rcases List.mem_map.mp ha with ⟨e, he, hek⟩
    exact hne (List.any_eq_true.mpr ⟨e, he, decide_eq_true hek⟩)

theorem getKey_assignFrag_of_none {frag : Obj} {k : String}
    (h : getKey frag k = none) (st : Obj) :
    getKey (assignFrag st frag) k = getKey st k := by
  induction frag generalizing st with
  | nil => rfl
  | cons e f ih =>
    rw [getKey_cons] at h
    by_cases hek : e.1 = k
    · simp [hek] at h
    · simp only [if_neg hek] at h
      unfold assignFrag at ih ⊢
      rw [List.foldl_cons]
      rw [ih h]
      exact getKey_setKey_ne st e.2 (fun hk => hek hk.symm)

theorem getKey_assignFrag_of_some {frag : Obj} {k : String} {v : SVal}
    (hnd : nodupKeys frag) (h : getKey frag k = some v) (st : Obj) :
    getKey (assignFrag st frag) k = some v := by
  induction frag generalizing st with
  | nil => simp [getKey] at h
  | cons e f ih =>
    rw [getKey_cons] at h
    unfold assignFrag
    rw [List.foldl_cons]
    by_cases hek : e.1 = k
    · simp only [if_pos hek, Option.some.injEq] at h
      subst h
      have hfk : getKey f k = none := by
        rw [getKey_eq_none_iff]
        intro e' he' hk
        unfold nodupKeys at hnd
        simp only [List.map_cons, List.nodup_cons] at hnd
        have hmem : e'.1 ∈ f.map (fun x => x.1) := List.mem_map.mpr ⟨e', he', rfl⟩
        rw [hk, ← hek] at hmem
        exact hnd.1 hmem
      have := getKey_assignFrag_of_none hfk (setKey st e.1 e.2)
      unfold assignFrag at this
      rw [this, hek, getKey_setKey_self]
    · simp only [if_neg hek] at h
      have hnd' : nodupKeys f := by
        unfold nodupKeys at hnd ⊢
        simpa using hnd.of_cons
      exact ih hnd' h (setKey st e.1 e.2)

theorem nodupKeys_assignFrag {st : Obj} (frag : Obj) (h : nodupKeys st) :
    nodupKeys (assignFrag st frag) := by
  induction frag generalizing st with
  | nil => exact h
  | cons e f ih =>
    unfold assignFrag
    rw [List.foldl_cons]
    exact ih (nodupKeys_setKey e.1 e.2 h)

/-! ### Merge-loop lemmas -/

theorem mergeLoop_fst_indep (table : Table) (tokens : List String) (st : Obj)
    (ws : List String) :
    (tokens.foldl
      (fun (acc : Obj × List String) cn =>
        match getFrag table cn with
        | some frag => (assignFrag acc.1 frag, acc.2)
        | none => (acc.1, acc.2 ++ [cn]))
      (st, ws)).1 = (mergeLoop table st tokens).1 := by
  induction tokens generalizing st ws with
  | nil => rfl
  | cons cn ts ih =>
    unfold mergeLoop
    rw [List.foldl_cons, List.foldl_cons]
    cases getFrag table cn with
    | some frag => simpa using (ih (assignFrag st frag) ws).trans (ih _ []).symm
    | none => simpa using (ih st (ws ++ [cn])).trans (ih st [cn]).symm

theorem mergeLoop_fst_cons (table : Table) (st : Obj) (cn : String)
    (ts : List String) :
    (mergeLoop table st (cn :: ts)).1 =
      match getFrag table cn with
      | some frag => (mergeLoop table (assignFrag st frag) ts).1
      | none => (mergeLoop table st ts).1 := by
  unfold mergeLoop
  rw [List.foldl_cons]
  cases getFrag table cn with
  | some frag => exact mergeLoop_fst_indep table ts (assignFrag st frag) []
  | none => simpa using mergeLoop_fst_indep table ts st [cn]

theorem getKey_mergeLoop_of_skip {table : Table} {tokens : List String}
    {k : String}
    (h : ∀ t ∈ tokens, ∀ f, getFrag table t = some f → getKey f k = none)
    (st : Obj) :
    getKey (mergeLoop table st tokens).1 k = getKey st k := by
  induction tokens generalizing st with
  | nil => rfl
  | cons cn ts ih =>
    rw [mergeLoop_fst_cons]
    cases hf : getFrag table cn with
    | some frag =>
      have h1 : getKey frag k = none := h cn (List.mem_cons_self cn ts) frag hf
      have h2 : ∀ t ∈ ts, ∀ f, getFrag table t = some f → getKey f k = none :=
        fun t ht => h t (List.mem_cons_of_mem cn ht)
      simpa [getKey_assignFrag_of_none h1] using ih h2 (assignFrag st frag)
    | none =>
      have h2 : ∀ t ∈ ts, ∀ f, getFrag table t = some f → getKey f k = none :=
        fun t ht => h t (List.mem_cons_of_mem cn ht)
      simpa using ih h2 st

theorem getKey_mergeLoop_last_writer {table : Table} {pre post : List String}
    {b k : String} {fb : Obj} {v : SVal}
    (hfb : getFrag table b = some fb) (hnd : nodupKeys fb)
    (hv : getKey fb k = some v)
    (hpost : ∀ t ∈ post, ∀ f, getFrag table t = some f → getKey f k = none)
    (st : Obj) :
    getKey (mergeLoop table st (pre ++ b :: post)).1 k = some v := by
  induction pre generalizing st with
  | nil =>
    rw [List.nil_append, mergeLoop_fst_cons, hfb]
    rw [getKey_mergeLoop_of_skip hpost]
    exact getKey_assignFrag_of_some hnd hv st
  | cons p pre' ih =>
    rw [List.cons_append, mergeLoop_fst_cons]
    cases getFrag table p with
    | some frag => exact ih (assignFrag st frag)
    | none => exact ih st

theorem nodupKeys_mergeLoop {table : Table} (tokens : List String) {st : Obj}
    (h : nodupKeys st) : nodupKeys (mergeLoop table st tokens).1 := by
  induction tokens generalizing st with
  | nil => exact h
  | cons cn ts ih =>
    rw [mergeLoop_fst_cons]
    cases getFrag table cn with
    | some frag => exact ih (nodupKeys_assignFrag frag h)
    | none => exact ih h

/-! ### `useVariables` characterization -/

theorem useVariables_foldl_eq (o : Obj) :
    ∀ (l : List (String × SVal)) (acc : Obj),
      (l.map (fun e => e.1)).Nodup →
      (∀ e ∈ l, ¬ acc.any (fun e' => e'.1 = e.1) = true) →
      l.foldl
        (fun acc e =>
          if strStarts "--" e.1 then acc
          else
            match e.2 with
            | .str s => setKey acc e.1 (.str (replaceVar o s))
            | v => setKey acc e.1 v)
        acc =
      acc ++ (l.filter (fun e => !(strStarts "--" e.1))).map
        (fun e => (e.1, substVal o e.2)) := by
  intro l
  induction l with
  | nil => intro acc _ _; simp
  | cons e l' ih =>
    intro acc hnd hdis
    rw [List.foldl_cons]
    have hnd' : (l'.map (fun e => e.1)).Nodup := by
      simpa using (List.nodup_cons.mp (by simpa using hnd)).2
    by_cases hp : strStarts "--" e.1
    · rw [if_pos hp]
      have hdis' : ∀ e' ∈ l', ¬ acc.any (fun x => x.1 = e'.1) = true :=
        fun e' he' => hdis e' (List.mem_cons_of_mem e he')
      rw [ih acc hnd' hdis']
      simp [hp]
    · rw [if_neg hp]
      have hset : ∀ v : SVal, setKey acc e.1 v = acc ++ [(e.1, v)] := by
        intro v
        unfold setKey
        rw [if_neg (hdis e (List.mem_cons_self e l'))]
      have hdis' : ∀ e' ∈ l',
          ¬ (acc ++ [(e.1, substVal o e.2)]).any (fun x => x.1 = e'.1) = true := by
        intro e' he'
        rw [List.any_append]
        simp only [Bool.or_eq_true, not_or]
        constructor
        · exact hdis e' (List.mem_cons_of_mem e he')
        · simp only [List.any_cons, List.any_nil, Bool.or_false, decide_eq_true_eq]
          intro hk
          have : e.1 ∈ l'.map (fun x => x.1) := hk ▸ List.mem_map.mpr ⟨e', he', rfl⟩
          exact (List.nodup_cons.mp (by simpa using hnd)).1 this
      have hmain :
          (l'.foldl
            (fun acc e =>
              if strStarts "--" e.1 then acc
              else
                match e.2 with
                | .str s => setKey acc e.1 (.str (replaceVar o s))
                | v => setKey acc e.1 v)
            (acc ++ [(e.1, substVal o e.2)])) =
          (acc ++ [(e.1, substVal o e.2)]) ++
            (l'.filter (fun e => !(strStarts "--" e.1))).map
              (fun e => (e.1, substVal o e.2)) :=
        ih (acc ++ [(e.1, substVal o e.2)]) hnd' hdis'
      have hstep :
          (match e.2 with
            | .str s => setKey acc e.1 (.str (replaceVar o s))
            | v => setKey acc e.1 v) = acc ++ [(e.1, substVal o e.2)] := by
        cases e.2 <;> simp [hset, substVal]
      rw [hstep, hmain]
      simp [hp, List.append_assoc]

theorem useVariables_eq {o : Obj} (h : nodupKeys o) :
    useVariables o =
      (o.filter (fun e => !(strStarts "--" e.1))).map
        (fun e => (e.1, substVal o e.2)) := by
  unfold useVariables
  have := useVariables_foldl_eq o o [] h (by intro e _; simp)
  simpa using this

theorem getKey_filtermap_subst (o : Obj) (k : String) :
    ∀ (l : List (String × SVal)), (l.map (fun e => e.1)).Nodup →
      getKey ((l.filter (fun e => !(strStarts "--" e.1))).map
        (fun e => (e.1, substVal o e.2))) k =
      if strStarts "--" k then none else (getKey l k).map (substVal o) := by
  intro l
  induction l with
  | nil => cases hk : strStarts "--" k <;> simp [getKey_nil, getKey, hk]
  | cons e l' ih =>
    intro hnd
    have hnd' : (l'.map (fun e => e.1)).Nodup :=
      (List.nodup_cons.mp (by simpa using hnd)).2
    by_cases hp : strStarts "--" e.1
    · rw [List.filter_cons_of_neg (by simpa using hp)]
      rw [ih hnd']
      by_cases hek : e.1 = k
      · have hk : strStarts "--" k = true := hek ▸ hp
        rw [if_pos hk, if_pos hk]
      · rw [getKey_cons, if_neg hek]
    · rw [List.filter_cons_of_pos (by simpa using hp)]
      rw [List.map_cons, getKey_cons]
      by_cases hek : e.1 = k
      · have hk : ¬ strStarts "--" k = true := fun hh => hp (hek ▸ hh)
        rw [getKey_cons, if_pos hek, if_pos hek, if_neg hk]
        rfl
      · rw [getKey_cons, if_neg hek, if_neg hek]
        exact ih hnd'

theorem getKey_useVariables {o : Obj} (h : nodupKeys o) (k : String) :
    getKey (useVariables o) k =
      if strStarts "--" k then none else (getKey o k).map (substVal o) := by
  rw [useVariables_eq h]
  exact getKey_filtermap_subst o k o h

/-! ### Ordering lemmas -/

theorem putLeadingToTheBack_foldl (key : String) :
    ∀ (l : List String) (a b : List String),
      l.foldl
        (fun (acc : List String × List String) name =>
          if strStarts (key ++ "leading-") name then (acc.1, acc.2 ++ [name])
          else (acc.1 ++ [name], acc.2))
        (a, b) =
      (a ++ l.filter (fun n => !(strStarts (key ++ "leading-") n)),
        b ++ l.filter (fun n => strStarts (key ++ "leading-") n)) := by
  intro l
  induction l with
  | nil => intro a b; simp
  | cons n l' ih =>
    intro a b
    rw [List.foldl_cons]
    by_cases hp : strStarts (key ++ "leading-") n
    · rw [if_pos hp, ih]
      rw [List.filter_cons_of_neg (by simpa using hp),
        List.filter_cons_of_pos (by simpa using hp)]
      simp
    · rw [if_neg hp, ih]
      rw [List.filter_cons_of_pos (by simpa using hp),
        List.filter_cons_of_neg (by simpa using hp)]
      simp

/-- The relocation loop is the stable partition: non-leading names in input
order, then leading names in input order. -/
theorem putLeadingToTheBack_eq (l : List String) (key : String) :
    putLeadingToTheBack l key =
      l.filter (fun n => !(strStarts (key ++ "leading-") n)) ++
        l.filter (fun n => strStarts (key ++ "leading-") n) := by
  unfold putLeadingToTheBack
  rw [putLeadingToTheBack_foldl key l [] []]
  simp

theorem lexLe_refl (l : List Char) : lexLe l l = true := by
  induction l with
  | nil => rfl
  | cons c cs ih => simp [lexLe, ih]

theorem lexLe_total (a : List Char) :
    ∀ b : List Char, lexLe a b = true ∨ lexLe b a = true := by
  induction a with
  | nil => intro b; left; rfl
  | cons c cs ih =>
    intro b
    cases b with
    | nil => right; rfl
    | cons d ds =>
      by_cases h1 : c.toNat < d.toNat
      · left; simp [lexLe, h1]
      · by_cases h2 : d.toNat < c.toNat
        · right; simp [lexLe, h2]
        · rcases ih ds with h | h
          · left; simp [lexLe, h1, h2, h]
          · right; simp [lexLe, h1, h2, h]

theorem lexLe_trans {a : List Char} :
    ∀ {b c : List Char}, lexLe a b = true → lexLe b c = true → lexLe a c = true := by
  induction a with
  | nil => intro b c _ _; rfl
  | cons x xs ih =>
    intro b c hab hbc
    cases b with
    | nil => simp [lexLe] at hab
    | cons y ys =>
      cases c with
      | nil => simp [lexLe] at hbc
      | cons z zs =>
        by_cases hxy1 : x.toNat < y.toNat
        · by_cases hyz1 : y.toNat < z.toNat
          · simp [lexLe, Nat.lt_trans hxy1 hyz1]
          · by_cases hyz2 : z.toNat < y.toNat
            · simp [lexLe, hyz1, hyz2] at hbc
            · have hxz : x.toNat < z.toNat := by omega
              simp [lexLe, hxz]
        · by_cases hxy2 : y.toNat < x.toNat
          · simp [lexLe, hxy1, hxy2] at hab
          · simp only [lexLe, if_neg hxy1, if_neg hxy2] at hab
            by_cases hyz1 : y.toNat < z.toNat
            · have hxz : x.toNat < z.toNat := by omega
              simp [lexLe, hxz]
            · by_cases hyz2 : z.toNat < y.toNat
              · simp [lexLe, hyz1, hyz2] at hbc
              · simp only [lexLe, if_neg hyz1, if_neg hyz2] at hbc
                have h1 : ¬ x.toNat < z.toNat := by omega
                have h2 : ¬ z.toNat < x.toNat := by omega
                simp only [lexLe, if_neg h1, if_neg h2]
                exact ih hab hbc

theorem lexLe_antisymm {a : List Char} :
    ∀ {b : List Char}, lexLe a b = true → lexLe b a = true → a = b := by
  induction a with
  | nil =>
    intro b _ hba
    cases b with
    | nil => rfl
    | cons y ys => simp [lexLe] at hba
  | cons x xs ih =>
    intro b hab hba
    cases b with
    | nil => simp [lexLe] at hab
    | cons y ys =>
      by_cases h1 : x.toNat < y.toNat
      · have h1' : ¬ y.toNat < x.toNat := Nat.lt_asymm h1
        simp [lexLe, h1, h1'] at hba
      · by_cases h2 : y.toNat < x.toNat
        · simp [lexLe, h1, h2] at hab
        · simp only [lexLe, if_neg h1, if_neg h2] at hab hba
          have hn : x.toNat = y.toNat :=
            Nat.le_antisymm (Nat.not_lt.mp h2) (Nat.not_lt.mp h1)
          have hxy : x = y := by
            apply Char.eq_of_val_eq
            apply UInt32.eq_of_val_eq
            exact Fin.ext hn
          rw [hxy, ih hab hba]

instance : IsTotal String strLe :=
  ⟨fun a b => lexLe_total a.toList b.toList⟩

instance : IsTrans String strLe :=
  ⟨fun _ _ _ hab hbc => lexLe_trans hab hbc⟩

instance : IsAntisymm String strLe :=
  ⟨fun a b hab hba => by
    have h := lexLe_antisymm hab hba
    cases a; cases b
    exact congrArg String.mk (by simpa using h)⟩

instance : IsRefl String strLe :=
  ⟨fun a => lexLe_refl a.toList⟩

theorem sortStr_sorted (l : List String) : List.Sorted strLe (sortStr l) :=
  List.sorted_insertionSort strLe l

theorem sortStr_perm (l : List String) : (sortStr l).Perm l :=
  List.perm_insertionSort strLe l

theorem sortStr_eq_of_perm {l₁ l₂ : List String} (h : l₁.Perm l₂) :
    sortStr l₁ = sortStr l₂ :=
  List.eq_of_perm_of_sorted
    ((sortStr_perm l₁).trans (h.trans (sortStr_perm l₂).symm))
    (sortStr_sorted l₁) (sortStr_sorted l₂)

/-- In a sorted list containing two distinct comparable elements, the pair
occurs in order as a sublist. -/
theorem pair_sublist_sorted {a b : String} :
    ∀ {l : List String}, strLe a b → a ≠ b → a ∈ l → b ∈ l →
      List.Sorted strLe l → [a, b].Sublist l := by
  intro l
  induction l with
  | nil => intro _ _ ha _ _; simp at ha
  | cons x xs ih =>
    intro hle hne ha hb hs
    rw [List.sorted_cons] at hs
    rcases List.mem_cons.mp ha with rfl | ha'
    · rcases List.mem_cons.mp hb with rfl | hb'
      · exact absurd rfl hne
      · exact List.cons_sublist_cons.mpr (List.singleton_sublist.mpr hb')
    · rcases List.mem_cons.mp hb with rfl | hb'
      · have hba : strLe b a := hs.1 a ha'
        exact absurd (antisymm hle hba) hne
      · exact (ih hle hne ha' hb' hs.2).cons x

/-! ### Breakpoint-filter characterization -/

theorem tierCount_eq (w : Rat) :
    ((maxWidthValues.map (fun mw => if w ≥ mw then 1 else 0)).foldl
      (fun a b => a + b) 0) = activeTierCount w := by
  unfold activeTierCount maxWidthValues
  by_cases h1 : (640 : Rat) ≤ w <;> by_cases h2 : (768 : Rat) ≤ w <;>
    by_cases h3 : (1024 : Rat) ≤ w <;> by_cases h4 : (1280 : Rat) ≤ w <;>
    simp [h1, h2, h3, h4, ge_iff_le]

theorem activeTierCount_le (w : Rat) : activeTierCount w ≤ 4 := by
  have := List.length_filter_le (fun v => decide (v ≤ w)) maxWidthValues
  simpa [activeTierCount, maxWidthValues] using this

theorem contains_keys_eq (x : String) :
    maxWidthKeys.contains x = (keyIndex x).isSome := by
  by_cases h1 : x = "sm:"
  · subst h1; rfl
  · by_cases h2 : x = "md:"
    · subst h2; rfl
    · by_cases h3 : x = "lg:"
      · subst h3; rfl
      · by_cases h4 : x = "xl:"
        · subst h4; rfl
        · have hk : keyIndex x = none := by simp [keyIndex, h1, h2, h3, h4]
          rw [hk]
          simp [maxWidthKeys, List.contains_cons, h1, h2, h3, h4]

theorem take_contains_iff (i : Nat) (x : String) :
    ((maxWidthKeys.take i).contains x = true) ↔
      (∃ j, keyIndex x = some j ∧ j < i) := by
  by_cases h1 : x = "sm:"
  · subst h1
    cases i with
    | zero => simp [maxWidthKeys, keyIndex]
    | succ n => simp [maxWidthKeys, keyIndex, List.take_succ_cons, List.contains_cons]
  · by_cases h2 : x = "md:"
    · subst h2
      cases i with
      | zero => simp [maxWidthKeys, keyIndex]
      | succ n =>
        cases n with
        | zero => simp [maxWidthKeys, keyIndex, List.take_succ_cons, List.contains_cons]
        | succ m =>
          simp [maxWidthKeys, keyIndex, List.take_succ_cons, List.contains_cons]
    · by_cases h3 : x = "lg:"
      · subst h3
        cases i with
        | zero => simp [maxWidthKeys, keyIndex]
        | succ n =>
          cases n with
          | zero => simp [maxWidthKeys, keyIndex, List.take_succ_cons, List.contains_cons]
          | succ m =>
            cases m with
            | zero => simp [maxWidthKeys, keyIndex, List.take_succ_cons, List.contains_cons]
            | succ p =>
              simp [maxWidthKeys, keyIndex, List.take_succ_cons, List.contains_cons]
      · by_cases h4 : x = "xl:"
        · subst h4
          cases i with
          | zero => simp [maxWidthKeys, keyIndex]
          | succ n =>
            cases n with
            | zero => simp [maxWidthKeys, keyIndex, List.take_succ_cons, List.contains_cons]
            | succ m =>
              cases m with
              | zero => simp [maxWidthKeys, keyIndex, List.take_succ_cons, List.contains_cons]
              | succ p =>
                cases p with
                | zero =>
                  simp [maxWidthKeys, keyIndex, List.take_succ_cons, List.contains_cons]
                | succ q =>
                  simp [maxWidthKeys, keyIndex, List.take_succ_cons, List.contains_cons]
        · have hk : keyIndex x = none := by simp [keyIndex, h1, h2, h3, h4]
          rw [hk]
          simp only [Option.some.injEq, false_and, exists_false, iff_false,
            reduceCtorEq]
          intro hc
          have hx : x ∈ maxWidthKeys :=
            List.take_subset i maxWidthKeys (List.mem_of_elem_eq_true hc)
          simp [maxWidthKeys, h1, h2, h3, h4] at hx

theorem keep_eq_specKeep (w : Rat) (cn : String) :
    (!(maxWidthKeys.contains (slice3 cn)) ||
      (maxWidthKeys.take (activeTierCount w)).contains (slice3 cn)) =
      specKeep w cn := by
  unfold specKeep tierIndex
  cases hk : keyIndex (slice3 cn) with
  | none =>
    rw [contains_keys_eq, hk]
    rfl
  | some j =>
    rw [contains_keys_eq, hk]
    simp only [Option.isSome_some, Bool.not_true, Bool.false_or]
    by_cases hj : j < activeTierCount w
    · have hc : ((maxWidthKeys.take (activeTierCount w)).contains (slice3 cn) = true) :=
        (take_contains_iff _ _).mpr ⟨j, hk, hj⟩
      rw [hc]
      exact (decide_eq_true hj).symm
    · have hc : ((maxWidthKeys.take (activeTierCount w)).contains (slice3 cn) = false) := by
        rw [Bool.eq_false_iff]
        intro hc
        rcases (take_contains_iff _ _).mp hc with ⟨j2, hj2, hlt⟩
        rw [hk] at hj2
        cases hj2
        exact hj hlt
      rw [hc]
      exact (decide_eq_false hj).symm

theorem strip_eq_specStrip (cn : String) :
    (if maxWidthKeys.contains (slice3 cn) then sliceFrom3 cn else cn) =
      specStrip cn := by
  unfold specStrip tierIndex
  rw [contains_keys_eq]

/-- The breakpoint filter is exactly the spec's: keep the untagged tokens and
the tagged tokens whose tier index is below `activeTierCount`, strip the tags
of the tagged survivors, preserve order. -/
theorem filterStrip_eq_spec (cs : List String) (w : Rat) :
    filterStrip cs w = (cs.filter (specKeep w)).map specStrip := by
  unfold filterStrip
  rw [tierCount_eq]
  dsimp only
  rw [List.filter_congr (fun x _ => keep_eq_specKeep w x)]
  exact List.map_congr_left (fun x _ => strip_eq_specStrip x)

/-! ### Tokenization lemmas -/

theorem splitWs_nil : splitWs [] = [] := rfl

theorem splitWs_cons_ws {c : Char} (h : c.isWhitespace = true) (cs : List Char) :
    splitWs (c :: cs) = splitWs cs := by
  simp only [splitWs, List.foldr_cons, wordsStep, h, if_true]

theorem splitWs_foldr_fst (l : List Char) :
    (l.foldr wordsStep ([], [])).1 = l.takeWhile (fun c => !c.isWhitespace) := by
  induction l with
  | nil => rfl
  | cons c cs ih =>
    rw [List.foldr_cons]
    cases hc : c.isWhitespace with
    | true => simp [wordsStep, hc]
    | false => simp [wordsStep, hc, List.takeWhile_cons, ih]

theorem splitWs_foldr_snd (l : List Char) :
    (l.foldr wordsStep ([], [])).2 =
      splitWs (l.dropWhile (fun c => !c.isWhitespace)) := by
  induction l with
  | nil => rfl
  | cons c cs ih =>
    rw [List.foldr_cons]
    cases hc : c.isWhitespace with
    | true =>
      have hstep : (wordsStep c (cs.foldr wordsStep ([], []))).2 =
          splitWs cs := by
        simp only [wordsStep, hc, if_true, splitWs]
      rw [hstep, List.dropWhile_cons]
      simp [hc, splitWs_cons_ws hc]
    | false =>
      have hstep : (wordsStep c (cs.foldr wordsStep ([], []))).2 =
          (cs.foldr wordsStep ([], [])).2 := by
        simp [wordsStep, hc]
      rw [hstep, ih, List.dropWhile_cons]
      simp [hc]

theorem splitWs_cons_not_ws {c : Char} (h : c.isWhitespace = false)
    (cs : List Char) :
    splitWs (c :: cs) =
      (c :: cs.takeWhile (fun x => !x.isWhitespace)) ::
        splitWs (cs.dropWhile (fun x => !x.isWhitespace)) := by
  show (let st := (c :: cs).foldr wordsStep ([], [])
    if st.1 = [] then st.2 else st.1 :: st.2) = _
  rw [List.foldr_cons]
  have h1 : (wordsStep c (cs.foldr wordsStep ([], []))) =
      (c :: (cs.foldr wordsStep ([], [])).1, (cs.foldr wordsStep ([], [])).2) := by
    simp [wordsStep, h]
  rw [h1]
  simp only [reduceCtorEq, if_false]
  rw [splitWs_foldr_fst, splitWs_foldr_snd]

theorem splitWs_all_ws {l : List Char} (h : ∀ c ∈ l, c.isWhitespace = true) :
    splitWs l = [] := by
  induction l with
  | nil => rfl
  | cons c cs ih =>
    rw [splitWs_cons_ws (h c (List.mem_cons_self c cs))]
    exact ih (fun c' hc' => h c' (List.mem_cons_of_mem c hc'))

theorem dropWhile_head_false (p : Char → Bool) (l : List Char) :
    l.dropWhile p = [] ∨
      ∃ a as, l.dropWhile p = a :: as ∧ p a = false := by
  induction l with
  | nil => left; rfl
  | cons c cs ih =>
    rw [List.dropWhile_cons]
    cases hc : p c with
    | true => simpa [hc] using ih
    | false => right; exact ⟨c, cs, by simp [hc], hc⟩

/-- A nonempty whitespace-free pattern occurs in a character list exactly when
it occurs inside one of its maximal non-whitespace runs. -/
theorem infix_splitWs {k : List Char} (hne : k ≠ [])
    (hws : ∀ c ∈ k, c.isWhitespace = false) :
    ∀ l : List Char, (k <:+: l) ↔ ∃ t ∈ splitWs l, k <:+: t := by
  have main : ∀ n (l : List Char), l.length ≤ n →
      ((k <:+: l) ↔ ∃ t ∈ splitWs l, k <:+: t) := by
    intro n
    induction n with
    | zero =>
      intro l hl
      have : l = [] := List.eq_nil_of_length_eq_zero (Nat.le_zero.mp hl)
      subst this
      simp only [splitWs_nil, List.not_mem_nil, false_and, exists_false,
        iff_false]
      intro hinf
      exact hne (List.eq_nil_of_infix_nil hinf)
    | succ n ih =>
      intro l hl
      cases l with
      | nil =>
        simp only [splitWs_nil, List.not_mem_nil, false_and, exists_false,
          iff_false]
        intro hinf
        exact hne (List.eq_nil_of_infix_nil hinf)
      | cons c cs =>
        simp only [List.length_cons, Nat.succ_le_succ_iff] at hl
        cases hc : c.isWhitespace with
        | true =>
          rw [splitWs_cons_ws hc]
          rw [← ih cs hl]
          constructor
          · rintro ⟨s, t, hst⟩
            cases s with
            | nil =>
              cases k with
              | nil => exact absurd rfl hne
              | cons k0 ks =>
                simp only [List.nil_append, List.cons_append,
                  List.cons.injEq] at hst
                have : k0.isWhitespace = false :=
                  hws k0 (List.mem_cons_self k0 ks)
                rw [hst.1] at this
                rw [hc] at this
                cases this
            | cons s0 s' =>
              simp only [List.cons_append, List.cons.injEq] at hst
              exact ⟨s', t, hst.2⟩
          · exact fun h => List.infix_cons h
        | false =>
          rw [splitWs_cons_not_ws hc]
          have hrest : (cs.dropWhile (fun x => !x.isWhitespace)).length ≤ n :=
            le_trans ((List.dropWhile_sublist _).length_le) hl
          have hiff := ih (cs.dropWhile (fun x => !x.isWhitespace)) hrest
          have hdec : c :: cs =
              (c :: cs.takeWhile (fun x => !x.isWhitespace)) ++
                cs.dropWhile (fun x => !x.isWhitespace) := by
            rw [List.cons_append, List.takeWhile_append_dropWhile]
          constructor
          · intro hinf
            rw [hdec] at hinf
            obtain ⟨s, t, hst⟩ := hinf
            rw [List.append_assoc] at hst
            rcases List.append_eq_append_iff.mp hst with ⟨a', ha'⟩ | ⟨c', hc'⟩
            · rcases List.append_eq_append_iff.mp ha'.2 with ⟨w, hw⟩ | ⟨w, hw⟩
              · refine ⟨c :: cs.takeWhile (fun x => !x.isWhitespace),
                  List.mem_cons_self _ _, s, w, ?_⟩
                rw [ha'.1, hw.1, List.append_assoc]
              · cases w with
                | nil =>
                  refine ⟨c :: cs.takeWhile (fun x => !x.isWhitespace),
                    List.mem_cons_self _ _, s, [], ?_⟩
                  rw [ha'.1]
                  rw [List.append_nil] at hw ⊢
                  rw [hw.1]
                | cons w0 w' =>
                  exfalso
                  have hw0k : w0 ∈ k := by
                    rw [hw.1]
                    exact List.mem_append_right a' (List.mem_cons_self w0 w')
                  have hw0 : w0.isWhitespace = false := hws w0 hw0k
                  rcases dropWhile_head_false (fun x => !x.isWhitespace) cs
                    with hnil | ⟨a, as, heq, hpa⟩
                  · rw [hnil] at hw
                    simp at hw
                  · rw [heq] at hw
                    have hwa : w0 = a := by
                      have h2 := hw.2
                      simp only [List.cons_append, List.cons.injEq] at h2
                      exact h2.1.symm
                    have ha : a.isWhitespace = true := by simpa using hpa
                    rw [hwa, ha] at hw0
                    cases hw0
            · refine (hiff.mp ⟨c', t, ?_⟩).imp
                (fun t' ht' => ⟨List.mem_cons_of_mem _ ht'.1, ht'.2⟩)
              rw [hc'.2, List.append_assoc]
          · rintro ⟨t', ht', hinf⟩
            rcases List.mem_cons.mp ht' with rfl | ht''
            · obtain ⟨s, t, hst⟩ := hinf
              rw [hdec]
              exact ⟨s, t ++ cs.dropWhile (fun x => !x.isWhitespace), by
                rw [← hst]; simp⟩
            · have := hiff.mpr ⟨t', ht'', hinf⟩
              obtain ⟨s, t, hst⟩ := this
              rw [hdec]
              exact ⟨(c :: cs.takeWhile (fun x => !x.isWhitespace)) ++ s, t, by
                rw [← hst]; simp⟩
  intro l
  exact main l.length l le_rfl

theorem isSubstr_iff (k s : String) :
    isSubstr k s = true ↔ k.toList <:+: s.toList := by
  unfold isSubstr
  rw [List.any_eq_true]
  constructor
  · rintro ⟨t, ht, hp⟩
    exact List.infix_iff_prefix_suffix.mpr
      ⟨t, List.isPrefixOf_iff_prefix.mp hp, (List.mem_tails t s.toList).mp ht⟩
  · intro h
    rcases List.infix_iff_prefix_suffix.mp h with ⟨t, hp, hsuf⟩
    exact ⟨t, (List.mem_tails t s.toList).mpr hsuf,
      List.isPrefixOf_iff_prefix.mpr hp⟩

theorem isSubstr_eq_of_perm {k : String} (hne : k.toList ≠ [])
    (hws : ∀ c ∈ k.toList, c.isWhitespace = false) {s₁ s₂ : String}
    (h : (splitWs s₁.toList).Perm (splitWs s₂.toList)) :
    isSubstr k s₁ = isSubstr k s₂ := by
  rw [Bool.eq_iff_iff, isSubstr_iff, isSubstr_iff,
    infix_splitWs hne hws s₁.toList, infix_splitWs hne hws s₂.toList]
  constructor
  · rintro ⟨t, ht, hi⟩; exact ⟨t, h.mem_iff.mp ht, hi⟩
  · rintro ⟨t, ht, hi⟩; exact ⟨t, h.mem_iff.mpr ht, hi⟩

theorem haveMWK_eq_of_perm {s₁ s₂ : String}
    (h : (splitWs s₁.toList).Perm (splitWs s₂.toList)) :
    haveMWK s₁ = haveMWK s₂ := by
  unfold haveMWK maxWidthKeys
  have e1 := @isSubstr_eq_of_perm "sm:" (by decide) (by decide) s₁ s₂ h
  have e2 := @isSubstr_eq_of_perm "md:" (by decide) (by decide) s₁ s₂ h
  have e3 := @isSubstr_eq_of_perm "lg:" (by decide) (by decide) s₁ s₂ h
  have e4 := @isSubstr_eq_of_perm "xl:" (by decide) (by decide) s₁ s₂ h
  simp [List.any_cons, e1, e2, e3, e4]

theorem haveMWK_all_ws {s : String}
    (h : ∀ c ∈ s.toList, c.isWhitespace = true) : haveMWK s = false := by
  unfold haveMWK maxWidthKeys
  have hk : ∀ k : String, 's' ∈ k.toList ∨ 'm' ∈ k.toList ∨ 'l' ∈ k.toList ∨
      'x' ∈ k.toList → isSubstr k s = false := by
    intro k hks
    rw [Bool.eq_false_iff]
    intro hsub
    have hinf := (isSubstr_iff k s).mp hsub
    have hsubset := hinf.subset
    rcases hks with hm | hm | hm | hm <;>
      simpa using h _ (hsubset hm)
  simp [List.any_cons, hk "sm:" (Or.inl (by decide)),
    hk "md:" (Or.inr (Or.inl (by decide))),
    hk "lg:" (Or.inr (Or.inr (Or.inl (by decide)))),
    hk "xl:" (Or.inr (Or.inr (Or.inr (by decide))))]

/-! ### Pipeline lemmas -/

theorem jsSplit_perm {s₁ s₂ : String}
    (h : (splitWs s₁.toList).Perm (splitWs s₂.toList)) :
    (jsSplit s₁).Perm (jsSplit s₂) := by
  unfold jsSplit
  cases h1 : splitWs s₁.toList with
  | nil =>
    have h2 : splitWs s₂.toList = [] := (h1 ▸ h).symm.eq_nil
    rw [h2]
  | cons t ts =>
    cases h2 : splitWs s₂.toList with
    | nil =>
      rw [h1, h2] at h
      exact absurd h.eq_nil (by simp)
    | cons u us =>
      rw [h1, h2] at h
      exact h.map (fun cs => String.mk cs)

theorem orderClassNames_eq_of_perm {cs₁ cs₂ : List String} (h : cs₁.Perm cs₂) :
    orderClassNames cs₁ = orderClassNames cs₂ := by
  unfold orderClassNames
  rw [sortStr_eq_of_perm (h.filter _), sortStr_eq_of_perm (h.filter _),
    sortStr_eq_of_perm (h.filter _), sortStr_eq_of_perm (h.filter _),
    sortStr_eq_of_perm (h.filter _)]

theorem normalizeKey_eq_of_perm {s₁ s₂ : String}
    (h : (splitWs s₁.toList).Perm (splitWs s₂.toList)) (w : Option Rat) :
    normalizeKey s₁ w = normalizeKey s₂ w := by
  simp only [normalizeKey]
  rw [haveMWK_eq_of_perm h, orderClassNames_eq_of_perm (jsSplit_perm h)]

theorem cacheGet_append (c₁ c₂ : Cache) (k : String) :
    cacheGet (c₁ ++ c₂) k = (cacheGet c₁ k).or (cacheGet c₂ k) := by
  unfold cacheGet
  rw [List.find?_append]
  cases List.find? (fun e => decide (e.1 = k)) c₁ <;> simp

theorem cacheGet_store {cache : Cache} {key : String}
    (h : cacheGet cache key = none) (v : Obj) :
    cacheGet (cache ++ [(key, v)]) key = some v := by
  rw [cacheGet_append, h]
  simp [cacheGet]

theorem haveMWK_empty : haveMWK "" = false := rfl

theorem normalizeKey_empty (w : Option Rat) : normalizeKey "" w = "" := rfl

/-- After a successful call, repeating the call with any string that has the
same breakpoint-substring status and the same normalized key returns the very
object the first call produced, leaves the cache unchanged and emits no
warnings. -/
theorem tailwind_second {table : Table} {c₀ : Cache} {s : String}
    {w : Option Rat} {r : Obj} {c₁ : Cache} {ws : List String}
    (h : tailwind table c₀ s w = .ok (r, c₁, ws)) (s₂ : String)
    (hm : haveMWK s₂ = haveMWK s) (hk : normalizeKey s₂ w = normalizeKey s w)
    (h₂ : s₂ ≠ "") : tailwind table c₁ s₂ w = .ok (r, c₁, []) := by
  by_cases hs : s = ""
  · subst hs
    rw [tailwind, if_pos rfl] at h
    have hr : r = cacheEmpty c₀ ∧ c₁ = c₀ := by
      have := h
      simp only [Except.ok.injEq, Prod.mk.injEq] at this
      exact ⟨this.1.symm, this.2.1.symm⟩
    rcases hr with ⟨rfl, rfl⟩
    rw [tailwind, if_neg h₂]
    rw [hm, haveMWK_empty]
    simp only [Bool.false_and, Bool.false_eq_true, if_false]
    rw [hk, normalizeKey_empty, if_pos rfl]
  · rw [tailwind, if_neg hs] at h
    cases hguard : (haveMWK s && jsFalsy w) with
    | true => rw [hguard] at h; simp at h
    | false =>
      rw [hguard] at h
      simp only [Bool.false_eq_true, if_false] at h
      rw [tailwind, if_neg h₂, hm, hguard]
      simp only [Bool.false_eq_true, if_false]
      rw [hk]
      by_cases hkey : normalizeKey s w = ""
      · rw [hkey, if_pos rfl] at h ⊢
        simp only [Except.ok.injEq, Prod.mk.injEq] at h
        rw [← h.2.1, h.1]
      · rw [if_neg hkey] at h ⊢
        cases hcg : cacheGet c₀ (normalizeKey s w) with
        | some v =>
          rw [hcg] at h
          simp only [Except.ok.injEq, Prod.mk.injEq] at h
          rcases h with ⟨hr, hc, _⟩
          subst hr; subst hc
          rw [hcg]
        | none =>
          rw [hcg] at h
          rw [computeStyle] at h
          cases hls : addLetterSpacing table (addFontVariant [] (normalizeKey s w))
              (normalizeKey s w) with
          | error e => rw [hls] at h; simp at h
          | ok st =>
            rw [hls] at h
            simp only [Except.ok.injEq, Prod.mk.injEq] at h
            rcases h with ⟨hr, hc, _⟩
            rw [← hc, ← hr]
            rw [cacheGet_store hcg]

theorem addLetterSpacing_error_iff (table : Table) (st : Obj) (key : String)
    (e : Err) :
    addLetterSpacing table st key = .error e ↔ lsErrorSpec table key = some e := by
  unfold addLetterSpacing lsErrorSpec
  cases findTracking key.toList with
  | none => simp
  | some lsClass =>
    dsimp only
    cases findFontSize key.toList with
    | none => simp
    | some fsClass =>
      dsimp only
      cases getFrag table lsClass with
      | none => simp
      | some lsFrag =>
        dsimp only
        cases getFrag table fsClass with
        | none => simp
        | some fsFrag => simp

theorem addLetterSpacing_ok_of_none {table : Table} {st : Obj} {key : String}
    (h : lsErrorSpec table key = none) :
    ∃ st', addLetterSpacing table st key = .ok st' := by
  unfold addLetterSpacing
  unfold lsErrorSpec at h
  cases hft : findTracking key.toList with
  | none => exact ⟨st, rfl⟩
  | some lsClass =>
    rw [hft] at h
    dsimp only at h ⊢
    cases hfs : findFontSize key.toList with
    | none => rw [hfs] at h; simp at h
    | some fsClass =>
      rw [hfs] at h
      dsimp only at h ⊢
      cases hg1 : getFrag table lsClass with
      | none => rw [hg1] at h; simp at h
      | some lsFrag =>
        rw [hg1] at h
        dsimp only at h ⊢
        cases hg2 : getFrag table fsClass with
        | none => rw [hg2] at h; simp at h
        | some fsFrag => exact ⟨_, rfl⟩

theorem addLetterSpacing_ok_getKey {table : Table} {st st' : Obj} {key : String}
    (h : addLetterSpacing table st key = .ok st') {k : String}
    (hk : k ≠ "letterSpacing") : getKey st' k = getKey st k := by
  unfold addLetterSpacing at h
  cases hft : findTracking key.toList with
  | none => rw [hft] at h; cases h; rfl
  | some lsClass =>
    rw [hft] at h
    dsimp only at h
    cases hfs : findFontSize key.toList with
    | none => rw [hfs] at h; cases h
    | some fsClass =>
      rw [hfs] at h
      dsimp only at h
      cases hg1 : getFrag table lsClass with
      | none => rw [hg1] at h; cases h
      | some lsFrag =>
        rw [hg1] at h
        dsimp only at h
        cases hg2 : getFrag table fsClass with
        | none => rw [hg2] at h; cases h
        | some fsFrag =>
          rw [hg2] at h
          cases h
          exact getKey_setKey_ne st _ hk

theorem addLetterSpacing_ok_nodup {table : Table} {st st' : Obj} {key : String}
    (h : addLetterSpacing table st key = .ok st') (hnd : nodupKeys st) :
    nodupKeys st' := by
  unfold addLetterSpacing at h
  cases hft : findTracking key.toList with
  | none => rw [hft] at h; cases h; exact hnd
  | some lsClass =>
    rw [hft] at h
    dsimp only at h
    cases hfs : findFontSize key.toList with
    | none => rw [hfs] at h; cases h
    | some fsClass =>
      rw [hfs] at h
      dsimp only at h
      cases hg1 : getFrag table lsClass with
      | none => rw [hg1] at h; cases h
      | some lsFrag =>
        rw [hg1] at h
        dsimp only at h
        cases hg2 : getFrag table fsClass with
        | none => rw [hg2] at h; cases h
        | some fsFrag =>
          rw [hg2] at h
          cases h
          exact nodupKeys_setKey _ _ hnd

theorem addFontVariant_nodup (key : String) : nodupKeys (addFontVariant [] key) := by
  unfold addFontVariant
  dsimp only
  split
  · exact nodupKeys_setKey _ _ (by simp [nodupKeys])
  · simp [nodupKeys]

theorem getKey_addFontVariant_fv (key : String) :
    getKey (addFontVariant [] key) "fontVariant" =
      (if findFV key = [] then none else some (.arr (findFV key))) := by
  unfold addFontVariant
  dsimp only
  split
  · rename_i h
    rw [if_neg (by intro hnil; rw [hnil] at h; simp at h)]
    exact getKey_setKey_self [] _ _
  · rename_i h
    rw [if_pos (by simpa using h)]
    rfl

theorem getKey_addFontVariant_ne (key : String) {k : String}
    (hk : k ≠ "fontVariant") : getKey (addFontVariant [] key) k = none := by
  unfold addFontVariant
  dsimp only
  split
  · rw [getKey_setKey_ne [] _ hk]
    rfl
  · rfl

theorem tailwind_miss {table : Table} {cache : Cache} {s : String}
    {w : Option Rat} {key : String} (hs : s ≠ "")
    (hg : (haveMWK s && jsFalsy w) = false) (hkey : normalizeKey s w = key)
    (hk : key ≠ "") (hmiss : cacheGet cache key = none) :
    tailwind table cache s w = computeStyle table cache key := by
  rw [tailwind, if_neg hs, hg]
  simp only [Bool.false_eq_true, if_false]
  rw [hkey, if_neg hk, hmiss]

theorem computeStyle_ok {table : Table} {key : String} {st' : Obj}
    (cache : Cache)
    (h : addLetterSpacing table (addFontVariant [] key) key = .ok st') :
    computeStyle table cache key =
      .ok (useVariables (mergeLoop table st' (separateClassNames key)).1,
        cache ++
          [(key, useVariables (mergeLoop table st' (separateClassNames key)).1)],
        (mergeLoop table st' (separateClassNames key)).2) := by
  unfold computeStyle
  rw [h]

theorem keyIndex_eq_some {x : String} {j : Nat} (h : keyIndex x = some j) :
    (j = 0 ∧ x = "sm:") ∨ (j = 1 ∧ x = "md:") ∨ (j = 2 ∧ x = "lg:") ∨
      (j = 3 ∧ x = "xl:") := by
  unfold keyIndex at h
  split_ifs at h with h1 h2 h3 h4 <;> simp only [Option.some.injEq] at h
  · exact Or.inl ⟨h.symm, h1⟩
  · exact Or.inr (Or.inl ⟨h.symm, h2⟩)
  · exact Or.inr (Or.inr (Or.inl ⟨h.symm, h3⟩))
  · exact Or.inr (Or.inr (Or.inr ⟨h.symm, h4⟩))

/-- Bucket prefix of a token: its breakpoint tag if it has one, else empty. -/
def bucketPrefix (cn : String) : String :=
  if (tierIndex cn).isSome then slice3 cn else ""

/-- A token relocated by `putLeadingToTheBack` within its own bucket. -/
def isLeadingName (cn : String) : Bool :=
  strStarts (bucketPrefix cn ++ "leading-") cn

theorem pair_in_bucket {cs : List String} {a b : String} {p : String → Bool}
    {pref : String} (hpa : p a = true) (hpb : p b = true) (ha : a ∈ cs)
    (hb : b ∈ cs) (hle : strLe a b) (hne : a ≠ b)
    (hla : strStarts (pref ++ "leading-") a = false)
    (hlb : strStarts (pref ++ "leading-") b = false) :
    [a, b].Sublist (putLeadingToTheBack (sortStr (cs.filter p)) pref) := by
  have haf : a ∈ cs.filter p := List.mem_filter.mpr ⟨ha, hpa⟩
  have hbf : b ∈ cs.filter p := List.mem_filter.mpr ⟨hb, hpb⟩
  have has : a ∈ sortStr (cs.filter p) := (sortStr_perm _).mem_iff.mpr haf
  have hbs : b ∈ sortStr (cs.filter p) := (sortStr_perm _).mem_iff.mpr hbf
  have hpair : [a, b].Sublist (sortStr (cs.filter p)) :=
    pair_sublist_sorted hle hne has hbs (sortStr_sorted _)
  rw [putLeadingToTheBack_eq]
  have hf := hpair.filter (fun n => !(strStarts (pref ++ "leading-") n))
  have heq : [a, b].filter (fun n => !(strStarts (pref ++ "leading-") n)) =
      [a, b] := by
    simp [List.filter_cons, hla, hlb]
  rw [heq] at hf
  exact hf.trans (List.sublist_append_left _ _)

theorem splitWs_nil_all_ws : ∀ {l : List Char}, splitWs l = [] →
    ∀ c ∈ l, c.isWhitespace = true := by
  intro l
  induction l with
  | nil => intro _ c hc; simp at hc
  | cons c cs ih =>
    intro h c' hc'
    cases hc : c.isWhitespace with
    | true =>
      rw [splitWs_cons_ws hc] at h
      rcases List.mem_cons.mp hc' with rfl | hmem
      · exact hc
      · exact ih h c' hmem
    | false =>
      rw [splitWs_cons_not_ws hc] at h
      cases h

theorem normalizeKey_blank {s : String}
    (hws : ∀ c ∈ s.toList, c.isWhitespace = true) (w : Option Rat) :
    normalizeKey s w = "" := by
  have hsplit : splitWs s.toList = [] := splitWs_all_ws hws
  have hmwk : haveMWK s = false := haveMWK_all_ws hws
  simp only [normalizeKey, jsSplit, hsplit, hmwk]
  rfl

/-- A blank (empty or whitespace-only) call returns the cache's pre-seeded
empty entry without touching the cache or warning. -/
theorem tailwind_blank {table : Table} {cache : Cache} {s : String}
    (hws : ∀ c ∈ s.toList, c.isWhitespace = true) (w : Option Rat) :
    tailwind table cache s w = .ok (cacheEmpty cache, cache, []) := by
  by_cases hs : s = ""
  · subst hs
    rw [tailwind, if_pos rfl]
  · have hmwk : haveMWK s = false := haveMWK_all_ws hws
    have hguard : (haveMWK s && jsFalsy w) = false := by
      rw [hmwk]; exact Bool.false_and _
    rw [tailwind, if_neg hs, hguard]
    simp only [Bool.false_eq_true, if_false]
    rw [normalizeKey_blank hws w, if_pos rfl]

/-! ### Claims -/

/-- C1: with a (truthy) width supplied, the breakpoint filter keeps every
untagged token unconditionally, keeps a tagged token exactly when its tier
index is strictly below `activeTierCount` (the number of tiers whose minimum
width is at most the width), strips the tag from the tagged survivors and
preserves the relative order; in particular `resolve("md:text-lg", 700)`
drops the `md:` token entirely while `resolve("md:text-lg", 800)` keeps it as
`text-lg`. -/
theorem claim1_breakpoint_filtering :
    (∀ (cs : List String) (w : Rat),
      filterStrip cs w = (cs.filter (specKeep w)).map specStrip) ∧
    tailwind mtable freshCache "md:text-lg" (some 700) =
      .ok ([], freshCache, []) ∧
    tailwind mtable freshCache "md:text-lg" (some 800) =
      .ok ([("fontSize", .num 18), ("lineHeight", .num 28)],
        [("", []), ("text-lg", [("fontSize", .num 18), ("lineHeight", .num 28)])],
        []) :=
  ⟨filterStrip_eq_spec, by with_unfolding_all rfl, by with_unfolding_all rfl⟩

/-- C5: within each bucket every `leading-`-prefixed token (with the bucket's
breakpoint prefix) is relocated after every other token of the bucket, both
groups keeping their relative order; consequently `resolve("text-lg
leading-6")` takes the line height from the `leading-6` fragment (24) rather
than `text-lg`'s own line height (28), in either input order. -/
theorem claim5_leading_relocation :
    (∀ (l : List String) (key : String),
      putLeadingToTheBack l key =
        l.filter (fun n => !(strStarts (key ++ "leading-") n)) ++
          l.filter (fun n => strStarts (key ++ "leading-") n)) ∧
    tailwind mtable freshCache "text-lg leading-6" none =
      .ok ([("fontSize", .num 18), ("lineHeight", .num 24)],
        [("", []),
          ("text-lg leading-6", [("fontSize", .num 18), ("lineHeight", .num 24)])],
        []) ∧
    tailwind mtable freshCache "leading-6 text-lg" none =
      .ok ([("fontSize", .num 18), ("lineHeight", .num 24)],
        [("", []),
          ("text-lg leading-6", [("fontSize", .num 18), ("lineHeight", .num 24)])],
        []) ∧
    getFrag mtable "leading-6" = some [("lineHeight", .num 24)] ∧
    getFrag mtable "text-lg" = some [("fontSize", .num 18), ("lineHeight", .num 28)] :=
  ⟨putLeadingToTheBack_eq, by with_unfolding_all rfl, by with_unfolding_all rfl,
    rfl, rfl⟩

/-- C7: finalization drops every property whose name starts with `--`,
replaces the `var(name)` placeholder of a string value by the named property
of the pre-substitution source object in one non-recursive pass, and passes
every other value through; the accumulator
`{"--tw-color": "#fff", color: "var(--tw-color)"}` finalizes to
`{color: "#fff"}`. -/
theorem claim7_variable_substitution :
    (∀ (o : Obj), nodupKeys o →
      useVariables o =
        (o.filter (fun e => !(strStarts "--" e.1))).map
          (fun e => (e.1, substVal o e.2))) ∧
    (∀ (o : Obj) (k : String), nodupKeys o →
      getKey (useVariables o) k =
        if strStarts "--" k then none else (getKey o k).map (substVal o)) ∧
    useVariables [("--tw-color", .str "#fff"), ("color", .str "var(--tw-color)")] =
      [("color", .str "#fff")] :=
  ⟨fun _ h => useVariables_eq h, fun _ k h => getKey_useVariables h k,
    by with_unfolding_all rfl⟩

theorem claim7_witness :
    getKey (useVariables
        [("--tw-color", SVal.str "#fff"), ("color", SVal.str "var(--tw-color)")])
      "color" =
      (if strStarts "--" "color" then none
        else (getKey
          [("--tw-color", SVal.str "#fff"), ("color", SVal.str "var(--tw-color)")]
          "color").map
          (substVal
            [("--tw-color", SVal.str "#fff"),
              ("color", SVal.str "var(--tw-color)")])) :=
  claim7_variable_substitution.2.1 _ "color" (by unfold nodupKeys; decide)

/-- C8: a second call with identical arguments after a successful call hits
the cache under the normalized token string: it returns the very object the
first call stored, leaves the cache unchanged, and emits no warnings (the
resolvers and merge engine are skipped). -/
theorem claim8_cache_idempotence :
    ∀ (table : Table) (c₀ : Cache) (s : String) (w : Option Rat) (r : Obj)
      (c₁ : Cache) (ws : List String),
      tailwind table c₀ s w = .ok (r, c₁, ws) →
      tailwind table c₁ s w = .ok (r, c₁, []) := by
  intro table c₀ s w r c₁ ws h
  by_cases hs : s = ""
  · subst hs
    rw [tailwind, if_pos rfl] at h ⊢
    simp only [Except.ok.injEq, Prod.mk.injEq] at h
    rw [← h.2.1, h.1]
  · exact tailwind_second h s rfl rfl hs

theorem claim8_witness :
    tailwind mtable
      [("", []), ("text-lg", [("fontSize", SVal.num 18), ("lineHeight", SVal.num 28)])]
      "text-lg" none =
      .ok ([("fontSize", SVal.num 18), ("lineHeight", SVal.num 28)],
        [("", []),
          ("text-lg", [("fontSize", SVal.num 18), ("lineHeight", SVal.num 28)])],
        []) :=
  claim8_cache_idempotence mtable freshCache "text-lg" none _ _ []
    (by with_unfolding_all rfl)

/-- C9: an empty or whitespace-only input returns the pre-seeded empty cache
entry (the empty style object on a fresh pipeline) with the cache unchanged
and no warnings — the merge chain contributes nothing. -/
theorem claim9_blank_input :
    (∀ (table : Table) (cache : Cache) (s : String) (w : Option Rat),
      (∀ c ∈ s.toList, c.isWhitespace = true) →
      tailwind table cache s w = .ok (cacheEmpty cache, cache, [])) ∧
    cacheEmpty freshCache = [] :=
  ⟨fun _ _ _ w hws => tailwind_blank hws w, rfl⟩

theorem claim9_witness :
    tailwind mtable freshCache "   " none = .ok ([], freshCache, []) ∧
    tailwind mtable freshCache "" none = .ok ([], freshCache, []) :=
  ⟨claim9_blank_input.1 mtable freshCache "   " none (by decide),
    claim9_blank_input.1 mtable freshCache "" none (by decide)⟩

/-- C10: two inputs with the same multiset of tokens (differing only in token
order and separating whitespace) normalize to the same cache key, so after a
successful call on the first, calling with the second returns the same stored
object with the cache unchanged and no warnings. -/
theorem claim10_token_multiset :
    ∀ (table : Table) (c₀ : Cache) (s₁ s₂ : String) (w : Option Rat) (r : Obj)
      (c₁ : Cache) (ws : List String),
      (splitWs s₁.toList).Perm (splitWs s₂.toList) →
      tailwind table c₀ s₁ w = .ok (r, c₁, ws) →
      tailwind table c₁ s₂ w = .ok (r, c₁, []) := by
  intro table c₀ s₁ s₂ w r c₁ ws hperm h
  by_cases hs₂ : s₂ = ""
  · subst hs₂
    have h2 : splitWs ("" : String).toList = [] := rfl
    rw [h2] at hperm
    have h1 : splitWs s₁.toList = [] := hperm.eq_nil
    have hws : ∀ c ∈ s₁.toList, c.isWhitespace = true := splitWs_nil_all_ws h1
    rw [tailwind_blank hws w] at h
    simp only [Except.ok.injEq, Prod.mk.injEq] at h
    rw [tailwind, if_pos rfl, ← h.2.1, h.1]
  · exact tailwind_second h s₂ (haveMWK_eq_of_perm hperm.symm)
      (normalizeKey_eq_of_perm hperm.symm w) hs₂

theorem claim10_witness :
    tailwind mtable [("", []), ("a b", [])] "a  b" none =
      .ok ([], [("", []), ("a b", [])], []) :=
  claim10_token_multiset mtable freshCache "b a" "a  b" none _ _ ["a", "b"]
    (by decide) (by with_unfolding_all rfl)

/-- C3 counterexample: on `"text-lg tracking-qqq"` — an unsupported
`tracking-*` token next to a supported font-size token — `resolve` raises the
destructuring `TypeError`, a third error kind, instead of skipping the
unsupported token with a warning as the claim states. -/
theorem claim3_counterexample :
    tailwind mtable freshCache "text-lg tracking-qqq" none = .error .typeError ∧
    Err.typeError ≠ Err.missingWidth ∧ Err.typeError ≠ Err.missingFontSize :=
  ⟨by with_unfolding_all rfl, by decide, by decide⟩

/-- C3 (amended): `tailwind` raises an error exactly in these cases, always
synchronously from the top-level call: the missing-width error exactly when
the raw input is nonempty, contains one of the four breakpoint prefixes as a
substring, and the width is absent or falsy; otherwise, on a nonempty
normalized key that is not cached, exactly the error `lsErrorSpec` assigns —
missing-font-size when the tracking regex matches without a font-size regex
match, and a `TypeError` when both match but the matched tracking or
font-size class is absent from the table.  On every other input it returns a
result. -/
theorem claim3_error_characterization :
    ∀ (table : Table) (cache : Cache) (s : String) (w : Option Rat) (e : Err),
      tailwind table cache s w = .error e ↔
        (s ≠ "" ∧ (haveMWK s && jsFalsy w) = true ∧ e = .missingWidth) ∨
        (s ≠ "" ∧ (haveMWK s && jsFalsy w) = false ∧ normalizeKey s w ≠ "" ∧
          cacheGet cache (normalizeKey s w) = none ∧
          lsErrorSpec table (normalizeKey s w) = some e) := by
  intro table cache s w e
  by_cases hs : s = ""
  · subst hs
    rw [tailwind, if_pos rfl]
    simp
  · rw [tailwind, if_neg hs]
    cases hg : (haveMWK s && jsFalsy w) with
    | true =>
      rw [if_pos rfl]
      simp [hs, hg, eq_comm]
    | false =>
      simp only [Bool.false_eq_true, if_false]
      by_cases hk : normalizeKey s w = ""
      · rw [hk, if_pos rfl]
        simp [hs, hg, hk]
      · rw [if_neg hk]
        cases hcg : cacheGet cache (normalizeKey s w) with
        | some v => simp [hs, hg, hk, hcg]
        | none =>
          rw [computeStyle]
          cases hls : addLetterSpacing table
              (addFontVariant [] (normalizeKey s w)) (normalizeKey s w) with
          | error e2 =>
            have hspec := (addLetterSpacing_error_iff _ _ _ e2).mp hls
            simp [hs, hg, hk, hcg, hspec, eq_comm]
          | ok st =>
            have hnone : lsErrorSpec table (normalizeKey s w) = none := by
              cases hspec : lsErrorSpec table (normalizeKey s w) with
              | none => rfl
              | some e2 =>
                have hcontra :=
                  (addLetterSpacing_error_iff table
                    (addFontVariant [] (normalizeKey s w)) (normalizeKey s w)
                    e2).mpr hspec
                rw [hls] at hcontra
                cases hcontra
            simp [hs, hg, hk, hcg, hnone]

/-- C4 counterexample: `"context-lg tracking-tight"` contains a `tracking-*`
token and no `text-<size>` token, yet `resolve` does not raise the
missing-font-size error: the font-size regex matches the substring `text-lg`
inside `context-lg`, so a letter spacing is computed and the call succeeds. -/
theorem claim4_counterexample :
    tailwind mtable freshCache "context-lg tracking-tight" none =
      .ok ([("letterSpacing", .num (-9/20))],
        [("", []),
          ("context-lg tracking-tight", [("letterSpacing", .num (-9/20))])],
        ["context-lg"]) ∧
    "tracking-tight" ∈ jsSplit "context-lg tracking-tight" ∧
    (∀ t ∈ jsSplit "context-lg tracking-tight", ∀ a ∈ fontSizeAlts,
      t ≠ "text-" ++ a) :=
  ⟨by with_unfolding_all rfl, by decide, by decide⟩

/-- C4 (amended): on a nonempty, uncached normalized key, if the tracking
regex matches but the font-size regex does not, the call raises the
missing-font-size error; if both match and the matched classes carry a string
`letterSpacing` and a numeric `fontSize`, and no merged fragment writes
`letterSpacing`, the result's `letterSpacing` is `parseFloat` of the tracking
fragment's string times the font-size fragment's number; tokens starting with
`tracking-` are excluded from the per-token merge. -/
theorem claim4_letter_spacing :
    (∀ (table : Table) (cache : Cache) (s : String) (w : Option Rat)
      (key : String),
      normalizeKey s w = key → s ≠ "" → (haveMWK s && jsFalsy w) = false →
      key ≠ "" → cacheGet cache key = none →
      (findTracking key.toList).isSome → findFontSize key.toList = none →
      tailwind table cache s w = .error .missingFontSize) ∧
    (∀ (table : Table) (cache : Cache) (s : String) (w : Option Rat)
      (key ls fs : String) (lsFrag fsFrag : Obj) (lsv : String) (fsn q : Rat),
      normalizeKey s w = key → s ≠ "" → (haveMWK s && jsFalsy w) = false →
      key ≠ "" → cacheGet cache key = none →
      findTracking key.toList = some ls → findFontSize key.toList = some fs →
      getFrag table ls = some lsFrag → getFrag table fs = some fsFrag →
      getKey lsFrag "letterSpacing" = some (.str lsv) →
      getKey fsFrag "fontSize" = some (.num fsn) →
      jsParseFloat lsv = some q →
      (∀ t ∈ separateClassNames key, ∀ f, getFrag table t = some f →
        getKey f "letterSpacing" = none) →
      ∃ r c₂ ws₂, tailwind table cache s w = .ok (r, c₂, ws₂) ∧
        getKey r "letterSpacing" = some (.num (q * fsn))) ∧
    (∀ (key t : String), t ∈ separateClassNames key →
      strStarts "tracking-" t = false) := by
  refine ⟨?_, ?_, ?_⟩
  · intro table cache s w key hkey hs hg hk hmiss hft hfsn
    rw [tailwind_miss hs hg hkey hk hmiss, computeStyle]
    obtain ⟨ls, hft'⟩ := Option.isSome_iff_exists.mp hft
    have hls : addLetterSpacing table (addFontVariant [] key) key =
        .error .missingFontSize := by
      unfold addLetterSpacing
      rw [hft']
      dsimp only
      rw [hfsn]
    rw [hls]
  · intro table cache s w key ls fs lsFrag fsFrag lsv fsn q hkey hs hg hk hmiss
      hft hfs hg1 hg2 hlsv hfsn hq hskip
    have hls : addLetterSpacing table (addFontVariant [] key) key =
        .ok (setKey (addFontVariant [] key) "letterSpacing" (.num (q * fsn))) := by
      unfold addLetterSpacing
      rw [hft]
      dsimp only
      rw [hfs]
      dsimp only
      rw [hg1]
      dsimp only
      rw [hg2]
      dsimp only
      rw [hlsv, hfsn]
      dsimp only [parseFloatVal, toNumberVal]
      rw [hq]
      rfl
    rw [tailwind_miss hs hg hkey hk hmiss, computeStyle_ok cache hls]
    refine ⟨_, _, _, rfl, ?_⟩
    have hnd2 : nodupKeys
        (setKey (addFontVariant [] key) "letterSpacing" (.num (q * fsn))) :=
      nodupKeys_setKey _ _ (addFontVariant_nodup key)
    have hndm : nodupKeys (mergeLoop table
        (setKey (addFontVariant [] key) "letterSpacing" (.num (q * fsn)))
        (separateClassNames key)).1 :=
      nodupKeys_mergeLoop _ hnd2
    rw [getKey_useVariables hndm, if_neg (by decide)]
    rw [getKey_mergeLoop_of_skip hskip]
    rw [getKey_setKey_self]
    rfl
  · intro key t ht
    unfold separateClassNames at ht
    have h1 := (List.mem_filter.mp ht).1
    have h2 := (List.mem_filter.mp h1).2
    simpa using h2

theorem claim4_witness :
    ∃ r c₂ ws₂,
      tailwind mtable freshCache "text-lg tracking-tighter" none =
        .ok (r, c₂, ws₂) ∧
      getKey r "letterSpacing" = some (.num (((-1 : Rat)/20) * 18)) :=
  claim4_letter_spacing.2.1 mtable freshCache "text-lg tracking-tighter" none
    "text-lg tracking-tighter" "tracking-tighter" "text-lg"
    [("letterSpacing", .str "-0.05em")]
    [("fontSize", .num 18), ("lineHeight", .num 28)] "-0.05em" 18 (-1/20)
    rfl (by decide) rfl (by decide) rfl rfl rfl rfl rfl rfl rfl
    (by with_unfolding_all rfl)
    (by
      intro t ht f hf
      have hsep : separateClassNames "text-lg tracking-tighter" = ["text-lg"] :=
        rfl
      rw [hsep] at ht
      simp only [List.mem_singleton] at ht
      subst ht
      have h2 : getFrag mtable "text-lg" =
          some [("fontSize", SVal.num 18), ("lineHeight", SVal.num 28)] := rfl
      rw [h2] at hf
      cases hf
      rfl)

/-- C6: on a nonempty, uncached normalized key whose merged fragments never
write `fontVariant`, the result's `fontVariant` is exactly the ordered list
of font-variant regex matches of the key (duplicates preserved, absent when
there is no match); the four keyword tokens are excluded from per-token
lookup; `resolve("oldstyle-nums tabular-nums")` yields
`fontVariant = ["oldstyle-nums", "tabular-nums"]`. -/
theorem claim6_font_variant :
    (∀ (table : Table) (cache : Cache) (s : String) (w : Option Rat)
      (key : String),
      normalizeKey s w = key → s ≠ "" → (haveMWK s && jsFalsy w) = false →
      key ≠ "" → cacheGet cache key = none →
      lsErrorSpec table key = none →
      (∀ t ∈ separateClassNames key, ∀ f, getFrag table t = some f →
        getKey f "fontVariant" = none) →
      ∃ r c₂ ws₂, tailwind table cache s w = .ok (r, c₂, ws₂) ∧
        getKey r "fontVariant" =
          (if findFV key = [] then none else some (.arr (findFV key)))) ∧
    (∀ (key t : String), t ∈ separateClassNames key →
      fvKeywords.contains t = false) ∧
    tailwind mtable freshCache "oldstyle-nums tabular-nums" none =
      .ok ([("fontVariant", .arr ["oldstyle-nums", "tabular-nums"])],
        [("", []),
          ("oldstyle-nums tabular-nums",
            [("fontVariant", .arr ["oldstyle-nums", "tabular-nums"])])],
        []) := by
  refine ⟨?_, ?_, by with_unfolding_all rfl⟩
  · intro table cache s w key hkey hs hg hk hmiss hls hskip
    obtain ⟨st2, hok⟩ := @addLetterSpacing_ok_of_none table (addFontVariant [] key) key hls
    rw [tailwind_miss hs hg hkey hk hmiss, computeStyle_ok cache hok]
    refine ⟨_, _, _, rfl, ?_⟩
    have hnd2 : nodupKeys st2 :=
      addLetterSpacing_ok_nodup hok (addFontVariant_nodup key)
    have hndm : nodupKeys (mergeLoop table st2 (separateClassNames key)).1 :=
      nodupKeys_mergeLoop _ hnd2
    rw [getKey_useVariables hndm, if_neg (by decide)]
    rw [getKey_mergeLoop_of_skip hskip]
    rw [addLetterSpacing_ok_getKey hok (by decide)]
    rw [getKey_addFontVariant_fv]
    cases hfv : findFV key with
    | nil => simp
    | cons m ms => simp [substVal]
  · intro key t ht
    unfold separateClassNames at ht
    have h2 := (List.mem_filter.mp ht).2
    simpa using h2

theorem claim6_witness :
    ∃ r c₂ ws₂,
      tailwind mtable freshCache "oldstyle-nums tabular-nums" none =
        .ok (r, c₂, ws₂) ∧
      getKey r "fontVariant" =
        (if findFV "oldstyle-nums tabular-nums" = [] then none
          else some (.arr (findFV "oldstyle-nums tabular-nums"))) :=
  claim6_font_variant.1 mtable freshCache "oldstyle-nums tabular-nums" none
    "oldstyle-nums tabular-nums" rfl (by decide) rfl (by decide) rfl rfl
    (by
      intro t ht f hf
      have hsep : separateClassNames "oldstyle-nums tabular-nums" = [] := rfl
      rw [hsep] at ht
      simp at ht)

/-- C2 counterexample: `resolve("bg-red-500 bg-blue-500")` yields
`bg-red-500`'s background color (the lexicographically later token), not
`bg-blue-500`'s as the claim's example states; and for the same-bucket pair
`leading-6 < text-lg`, both writing `lineHeight`, the lexicographically later
`text-lg` does *not* win — the relocated `leading-6` does — so the claim's
general sentence needs the leading-token exception. -/
theorem claim2_counterexample :
    (tailwind mtable freshCache "bg-red-500 bg-blue-500" none =
      .ok ([("backgroundColor", .str "#f56565")],
        [("", []),
          ("bg-blue-500 bg-red-500", [("backgroundColor", .str "#f56565")])],
        []) ∧
      getFrag mtable "bg-blue-500" = some [("backgroundColor", .str "#4299e1")] ∧
      SVal.str "#f56565" ≠ SVal.str "#4299e1") ∧
    (tailwind mtable freshCache "text-lg leading-6" none =
      .ok ([("fontSize", .num 18), ("lineHeight", .num 24)],
        [("", []),
          ("text-lg leading-6", [("fontSize", .num 18), ("lineHeight", .num 24)])],
        []) ∧
      tierIndex "leading-6" = tierIndex "text-lg" ∧
      strLe "leading-6" "text-lg" ∧ "leading-6" ≠ "text-lg" ∧
      getFrag mtable "text-lg" =
        some [("fontSize", .num 18), ("lineHeight", .num 28)] ∧
      SVal.num 24 ≠ SVal.num 28) :=
  ⟨⟨by with_unfolding_all rfl, rfl, by decide⟩,
    ⟨by with_unfolding_all rfl, rfl, by decide, by decide, rfl, by decide⟩⟩

/-- C2 (amended): the merge engine consumes the five buckets (untagged, sm:,
md:, lg:, xl:) in that order, each sorted lexicographically with its
`leading-` names moved to the back; hence for two same-bucket non-leading
tokens the lexicographically later one is merged later, and with later-merged
fragments overwriting earlier ones per key its value survives when no later
fragment writes the key — e.g. `resolve("bg-red-500 bg-blue-500")` yields
`bg-red-500`'s background color. -/
theorem claim2_sorted_override :
    (∀ (cs : List String) (a b : String),
      tierIndex a = tierIndex b → strLe a b → a ≠ b →
      isLeadingName a = false → isLeadingName b = false →
      a ∈ cs → b ∈ cs → [a, b].Sublist (orderClassNames cs)) ∧
    (∀ (table : Table) (pre post : List String) (b k : String) (fb : Obj)
      (v : SVal) (st : Obj),
      getFrag table b = some fb → nodupKeys fb → getKey fb k = some v →
      (∀ t ∈ post, ∀ f, getFrag table t = some f → getKey f k = none) →
      getKey (mergeLoop table st (pre ++ b :: post)).1 k = some v) ∧
    tailwind mtable freshCache "bg-red-500 bg-blue-500" none =
      .ok ([("backgroundColor", .str "#f56565")],
        [("", []),
          ("bg-blue-500 bg-red-500", [("backgroundColor", .str "#f56565")])],
        []) ∧
    getFrag mtable "bg-red-500" = some [("backgroundColor", .str "#f56565")] := by
  refine ⟨?_, ?_, by with_unfolding_all rfl, rfl⟩
  · intro cs a b hti hle hne hla hlb ha hb
    unfold orderClassNames
    dsimp only
    cases ht : tierIndex a with
    | none =>
      have htb : tierIndex b = none := by rw [← hti]; exact ht
      have hpa : (!(maxWidthKeys.contains (slice3 a))) = true := by
        rw [contains_keys_eq]
        unfold tierIndex at ht
        rw [ht]
        rfl
      have hpb : (!(maxWidthKeys.contains (slice3 b))) = true := by
        rw [contains_keys_eq]
        unfold tierIndex at htb
        rw [htb]
        rfl
      unfold isLeadingName bucketPrefix at hla hlb
      rw [ht] at hla
      rw [htb] at hlb
      simp only [Option.isSome_none, Bool.false_eq_true, if_false] at hla hlb
      exact (pair_in_bucket hpa hpb ha hb hle hne hla hlb).trans
        ((((List.sublist_append_left _ _).trans
          (List.sublist_append_left _ _)).trans
          (List.sublist_append_left _ _)).trans
          (List.sublist_append_left _ _))
    | some j =>
      have htb : tierIndex b = some j := by rw [← hti]; exact ht
      unfold isLeadingName bucketPrefix at hla hlb
      rw [ht] at hla
      rw [htb] at hlb
      simp only [Option.isSome_some, if_true] at hla hlb
      unfold tierIndex at ht htb
      rcases keyIndex_eq_some ht with ⟨hj, hsa⟩ | ⟨hj, hsa⟩ | ⟨hj, hsa⟩ | ⟨hj, hsa⟩ <;>
        subst hj <;>
        [(rcases keyIndex_eq_some htb with ⟨_, hsb⟩ | ⟨hj2, _⟩ | ⟨hj2, _⟩ | ⟨hj2, _⟩ <;>
          try omega);
          (rcases keyIndex_eq_some htb with ⟨hj2, _⟩ | ⟨_, hsb⟩ | ⟨hj2, _⟩ | ⟨hj2, _⟩ <;>
          try omega);
          (rcases keyIndex_eq_some htb with ⟨hj2, _⟩ | ⟨hj2, _⟩ | ⟨_, hsb⟩ | ⟨hj2, _⟩ <;>
          try omega);
          (rcases keyIndex_eq_some htb with ⟨hj2, _⟩ | ⟨hj2, _⟩ | ⟨hj2, _⟩ | ⟨_, hsb⟩ <;>
          try omega)]
      · rw [hsa] at hla
        rw [hsb] at hlb
        exact (pair_in_bucket (decide_eq_true hsa) (decide_eq_true hsb)
            ha hb hle hne hla hlb).trans
          ((((List.sublist_append_right _ _).trans
            (List.sublist_append_left _ _)).trans
            (List.sublist_append_left _ _)).trans
            (List.sublist_append_left _ _))
      · rw [hsa] at hla
        rw [hsb] at hlb
        exact (pair_in_bucket (decide_eq_true hsa) (decide_eq_true hsb)
            ha hb hle hne hla hlb).trans
          (((List.sublist_append_right _ _).trans
            (List.sublist_append_left _ _)).trans
            (List.sublist_append_left _ _))
      · rw [hsa] at hla
        rw [hsb] at hlb
        exact (pair_in_bucket (decide_eq_true hsa) (decide_eq_true hsb)
            ha hb hle hne hla hlb).trans
          ((List.sublist_append_right _ _).trans
            (List.sublist_append_left _ _))
      · rw [hsa] at hla
        rw [hsb] at hlb
        exact (pair_in_bucket (decide_eq_true hsa) (decide_eq_true hsb)
            ha hb hle hne hla hlb).trans
          (List.sublist_append_right _ _)
  · intro table pre post b k fb v st hfb hnd hv hpost
    exact getKey_mergeLoop_last_writer hfb hnd hv hpost st

theorem claim2_witness :
    [("bg-blue-500" : String), "bg-red-500"].Sublist
      (orderClassNames ["bg-red-500", "bg-blue-500"]) ∧
    getKey (mergeLoop mtable []
        (["bg-blue-500"] ++ "bg-red-500" :: [])).1 "backgroundColor" =
      some (.str "#f56565") :=
  ⟨claim2_sorted_override.1 ["bg-red-500", "bg-blue-500"] "bg-blue-500"
      "bg-red-500" (by decide) (by decide) (by decide) (by decide) (by decide)
      (by decide) (by decide),
    claim2_sorted_override.2.1 mtable ["bg-blue-500"] [] "bg-red-500"
      "backgroundColor" [("backgroundColor", .str "#f56565")] (.str "#f56565")
      [] rfl (by unfold nodupKeys; decide) rfl (by intro t ht; simp at ht)⟩

end TailwindRn
